import Mathlib

/-!
# Verification of the view-manager subsystem (`src/main/views/viewManager.ts`)

This development gives a shallow embedding of the `ViewManager` class and the
collaborating view objects, and proves (or refutes) the specified properties of
view reconciliation, activation, deep-link handling, and the URL preview
overlay.

JavaScript `Map` objects are modelled as association lists with the same
observable behaviour: `set` updates an existing key in place (keeping its
position) and otherwise appends, `delete` removes the key, and `new Map(xs)`
is a left fold of `set` over the pairs.
-/

namespace ViewManagerProof

/-! ## Association lists modelling JS `Map` -/

/-- `Map.prototype.get`. -/
def alGet [DecidableEq α] : List (α × β) → α → Option β
  | [], _ => none
  | (k, v) :: rest, k' => if k = k' then some v else alGet rest k'

/-- `Map.prototype.has`. -/
def alHas [DecidableEq α] (m : List (α × β)) (k : α) : Bool :=
  (alGet m k).isSome

/-- `Map.prototype.set`: update in place if the key is present, else append. -/
def alSet [DecidableEq α] : List (α × β) → α → β → List (α × β)
  | [], k, v => [(k, v)]
  | (k₀, v₀) :: rest, k, v =>
    if k₀ = k then (k, v) :: rest else (k₀, v₀) :: alSet rest k v

/-- `Map.prototype.delete` (on maps, which have unique keys, removing every
entry with the key coincides with removing the entry). -/
def alDel [DecidableEq α] (m : List (α × β)) (k : α) : List (α × β) :=
  m.filter (fun p => p.1 ≠ k)

/-- `Map.prototype.values` (in insertion order). -/
def alValues (m : List (α × β)) : List β :=
  m.map Prod.snd

/-- `new Map(xs)`: fold `set` over the pairs. -/
def mapFrom [DecidableEq α] (xs : List (α × β)) : List (α × β) :=
  xs.foldl (fun m kv => alSet m kv.1 kv.2) []

/-! ## Data model

The value types follow `types/config` and the view-manager state fields of
`ViewManager` (`src/main/views/viewManager.ts:53-64`). URLs are modelled as
already-canonical strings: `new URL(u).href` is the identity `hrefOf` on them
(URL canonicalisation lives outside the sources). -/

/-- `new URL(u).href` on an already-canonical URL string. -/
def hrefOf (u : String) : String := u

/-- A record tuple `tuple(new URL(server.url).href, tab.name)` — the TabKey.
The record-tuple polyfill gives structural equality, modelled by a structure
with decidable equality. -/
structure TabTuple where
  url : String
  typ : String
deriving DecidableEq, Repr

/-- A `Tab` config entry (`types/config`): `name`, `order`, `isOpen`. -/
structure Tab where
  name : String
  order : Nat
  isOpen : Bool
deriving DecidableEq, Repr

/-- A `MattermostServer` (name and url). -/
structure Srv where
  name : String
  url : String
deriving DecidableEq, Repr

/-- A `TeamWithTabs` configuration entry. `lastActiveTab` is
`number | undefined`, modelled as `Option Nat`. -/
structure TeamWithTabs where
  name : String
  url : String
  order : Nat
  lastActiveTab : Option Nat
  tabs : List Tab
deriving DecidableEq, Repr

/-- Modelled from the spec: `getTabViewName(serverName, tabName)` derives the
view name `serverName:tabName` (§3: "name (derived serverName:tabName)";
`common/tabs/TabView` is not part of the sources). -/
def getTabViewName (serverName tabName : String) : String :=
  serverName ++ ":" ++ tabName

/-- The TabKey of a (server url, tab name) pair, as computed in
`reloadConfiguration`: `tuple(new URL(x.url).href, t.name)`. -/
def keyOf (serverUrl tabName : String) : TabTuple :=
  ⟨hrefOf serverUrl, tabName⟩

/-- Modelled from the spec: a `MattermostView` (§3/§4.1; `MattermostView.ts`
is not part of the sources). It carries the derived name, its TabKey, the
bound server reference (`tab.server`), the `ServerInfo` reference's reported
remote version, the visibility/load/error state machine, and — as ghost
state — the surface identity (`surfaceId`, fresh per construction, stable
under recycling) and the pending event listeners registered on it by the
view manager (`onceActivate` for `makeView`'s `once(LOAD_SUCCESS,
activateView)`, `dlSuccess`/`dlFailed` for the deep-link pair, `occListener`
for `openClosedTab`'s `on(LOAD_SUCCESS, ...)` handler). -/
structure MMView where
  name : String
  tuple : TabTuple
  srvName : String
  srvUrl : String
  serverVersion : Option String
  isVisible : Bool
  errored : Bool
  initialized : Bool
  ready : Bool
  firstLoadDone : Bool
  loading : Bool
  pendingUrl : Option String
  surfaceId : Nat
  onceActivate : Bool
  dlSuccess : Bool
  dlFailed : Bool
  occListener : Bool
deriving DecidableEq, Repr

/-- The loading-screen overlay state (`LoadingScreenState`). -/
inductive LSState where
  | visible
  | fading
  | hidden
deriving DecidableEq, Repr

/-- The `ViewManager` state. `views` and `closedViews` are JS `Map`s
(association lists); `destroyedSurfaces`, `loadCalls`, `historyPushes`,
`dlSuccessCalls`, `dlFailedCalls` and `errorBoxes` are ghost logs recording
`view.destroy()`, `view.load(url)`, `BROWSER_HISTORY_PUSH` sends, calls of
`deeplinkSuccess`/`deeplinkFailed`, and `dialog.showErrorBox`. `nextSurface`
numbers freshly constructed surfaces. -/
structure VMState where
  configServers : List TeamWithTabs
  lastActiveServer : Option Nat
  views : List (String × MMView)
  closedViews : List (String × (Srv × Tab))
  currentView : Option String
  loadingScreenState : LSState
  nextSurface : Nat
  destroyedSurfaces : List Nat
  loadCalls : List (String × Option String)
  historyPushes : List (String × String)
  dlSuccessCalls : List String
  dlFailedCalls : List String
  errorBoxes : Nat
deriving DecidableEq, Repr

/-! ## View primitives (modelled from the spec, §4.1) -/

/-- Modelled from the spec: `MattermostView.hide()` toggles the surface
hidden. -/
def hideV (v : MMView) : MMView := {v with isVisible := false}

/-- Modelled from the spec: `MattermostView.show()` toggles the surface
visible; "an errored view is never shown (`show()` is a no-op if
errored)". -/
def showV (v : MMView) : MMView :=
  if v.errored then v else {v with isVisible := true}

/-- Modelled from the spec: `needsLoadingScreen()` is "true until the first
successful load completes". -/
def needsLoadingScreen (v : MMView) : Bool := !v.firstLoadDone

/-! ## Loading screen -/

/-- `showLoadingScreen` (`viewManager.ts:455-477`): state becomes VISIBLE
(surface creation and IPC sends are external effects). -/
def showLoadingScreen (s : VMState) : VMState :=
  {s with loadingScreenState := LSState.visible}

/-- `fadeLoadingScreen` (`viewManager.ts:479-484`): VISIBLE → FADING. -/
def fadeLoadingScreen (s : VMState) : VMState :=
  if s.loadingScreenState = LSState.visible then
    {s with loadingScreenState := LSState.fading}
  else s

/-! ## showByName / showInitial -/

/-- The hide-the-previous-view step of `showByName`
(`viewManager.ts:253-258`): if a different view is current, hide it. -/
def hidePrev (s : VMState) (name : String) : VMState :=
  match s.currentView with
  | some cur =>
    if cur ≠ name then
      match alGet s.views cur with
      | some previous => {s with views := alSet s.views cur (hideV previous)}
      | none => s
    else s
  | none => s

/-- `showByName` (`viewManager.ts:245-278`): no-op when the target is
missing or already visible; otherwise hide the previous view (if any and
different), repoint `currentView`, and show the target unless it is errored,
raising the loading screen for cold views. The renderer/IPC notifications
are external effects. -/
def showByName (s : VMState) (name : String) : VMState :=
  match alGet s.views name with
  | none => s
  | some newView =>
    if newView.isVisible then s
    else
      let s₂ := {hidePrev s name with currentView := some name}
      if newView.errored then s₂
      else
        let s₃ := {s₂ with views := alSet s₂.views name (showV newView)}
        if needsLoadingScreen newView then showLoadingScreen s₃ else s₃

/-- Stable insertion of a tab into a list sorted by `order` — models the
stable `Array.prototype.sort((a, b) => a.order - b.order)`. -/
def insertTab (t : Tab) : List Tab → List Tab
  | [] => [t]
  | x :: xs => if t.order ≤ x.order then t :: x :: xs else x :: insertTab t xs

/-- Stable sort of tabs by `order` (the `sort(by((x) => x.order))` helper). -/
def sortTabs (l : List Tab) : List Tab := l.foldr insertTab []

/-- The closed-tab fallback inside `showInitial` (`viewManager.ts:233-236`):
the open tab at order 0, else the lowest-order open tab. -/
def fallbackOpenTab (element : TeamWithTabs) : Option Tab :=
  let openTabs := element.tabs.filter (fun t => t.isOpen)
  match openTabs.find? (fun t => t.order = 0) with
  | some t => some t
  | none => (sortTabs openTabs).head?

/-- `showInitial` (`viewManager.ts:228-243`): pick the server matching
`lastActiveServer` (else order 0), then the tab matching its `lastActiveTab`
(else order 0), falling back to the lowest-order open tab when that tab is
closed or missing, and show it by derived name. -/
def showInitial (s : VMState) : VMState :=
  if s.configServers.isEmpty then s
  else
    let element :=
      match s.configServers.find? (fun e => some e.order = s.lastActiveServer) with
      | some e => some e
      | none => s.configServers.find? (fun e => e.order = 0)
    match element with
    | none => s
    | some element =>
      if element.tabs.isEmpty then s
      else
        let tab₀ :=
          match element.tabs.find? (fun t => some t.order = element.lastActiveTab) with
          | some t => some t
          | none => element.tabs.find? (fun t => t.order = 0)
        let tab :=
          match tab₀ with
          | some t => if t.isOpen then some t else fallbackOpenTab element
          | none => fallbackOpenTab element
        match tab with
        | none => s
        | some t => showByName s (getTabViewName element.name t.name)

/-! ## View construction and loading -/

/-- The fresh `MattermostView` constructed by `makeView`: hidden, cold,
loading, with the `once(LOAD_SUCCESS, activateView)` listener registered and
a fresh surface. The `ServerInfo` passed to `makeView` is freshly
constructed at every call site, so its remote version is not yet known. -/
def freshView (srv : Srv) (tab : Tab) (url : Option String) (sid : Nat) :
    MMView :=
  { name := getTabViewName srv.name tab.name
    tuple := keyOf srv.url tab.name
    srvName := srv.name
    srvUrl := srv.url
    serverVersion := none
    isVisible := false
    errored := false
    initialized := false
    ready := false
    firstLoadDone := false
    loading := true
    pendingUrl := url
    surfaceId := sid
    onceActivate := true
    dlSuccess := false
    dlFailed := false
    occListener := false }

/-- `makeView` (`viewManager.ts:90-102`): drop any closed-view record for the
derived name, construct a fresh `MattermostView`, register its listeners,
and start `view.load(url)` (recorded in the `loadCalls` ghost log). -/
def makeView (s : VMState) (srv : Srv) (tab : Tab) (url : Option String) :
    VMState × MMView :=
  let name := getTabViewName srv.name tab.name
  ({ s with
      closedViews := alDel s.closedViews name
      nextSurface := s.nextSurface + 1
      loadCalls := s.loadCalls ++ [(name, url)] },
   freshView srv tab url s.nextSurface)

/-- `addView` (`viewManager.ts:104-109`): register the view under its name
(the loading-screen surface creation is covered by the `LSState` field). -/
def addView (s : VMState) (v : MMView) : VMState :=
  {s with views := alSet s.views v.name v}

/-- `loadView` (`viewManager.ts:111-117`): a closed tab is recorded in
`closedViews`; an open tab becomes a live view. -/
def loadView (s : VMState) (srv : Srv) (tab : Tab) (url : Option String) :
    VMState :=
  if !tab.isOpen then
    {s with closedViews := alSet s.closedViews (getTabViewName srv.name tab.name) (srv, tab)}
  else
    let (s₁, v) := makeView s srv tab url
    addView s₁ v

/-- `openClosedTab` (`viewManager.ts:316-331`): reopen a closed tab — mark it
open, load it as a live view, show it by name, force `isVisible = true`, and
register the `on(LOAD_SUCCESS, ...)` re-show handler (`occListener`). -/
def openClosedTab (s : VMState) (name : String) (url : Option String) :
    VMState :=
  match alGet s.closedViews name with
  | none => s
  | some (srv, tab) =>
    let tab' := {tab with isOpen := true}
    let s₁ := loadView s srv tab' url
    let s₂ := showByName s₁ name
    match alGet s₂.views name with
    | none => s₂
    | some view =>
      {s₂ with views := alSet s₂.views name {view with isVisible := true, occListener := true}}

/-! ## Deep links and load events -/

/-- `activateView` (`viewManager.ts:292-304`): on a view's first successful
load, re-run `showByName` when it is the currently requested view (the web
content listener wiring is an external effect). -/
def activateView (s : VMState) (viewName : String) : VMState :=
  if s.currentView = some viewName then showByName s viewName else s

/-- `deeplinkSuccess` (`viewManager.ts:509-518`): record the call, and if the
view still exists, show it and remove the paired `LOAD_FAILED` listener. -/
def deeplinkSuccess (s : VMState) (viewName : String) : VMState :=
  let s₀ := {s with dlSuccessCalls := s.dlSuccessCalls ++ [viewName]}
  match alGet s₀.views viewName with
  | none => s₀
  | some _ =>
    let s₁ := showByName s₀ viewName
    match alGet s₁.views viewName with
    | none => s₁
    | some v => {s₁ with views := alSet s₁.views viewName {v with dlFailed := false}}

/-- `deeplinkFailed` (`viewManager.ts:520-527`): record the call, and if the
view still exists, remove the paired `LOAD_SUCCESS` listener. -/
def deeplinkFailed (s : VMState) (viewName : String) : VMState :=
  let s₀ := {s with dlFailedCalls := s.dlFailedCalls ++ [viewName]}
  match alGet s₀.views viewName with
  | none => s₀
  | some v => {s₀ with views := alSet s₀.views viewName {v with dlSuccess := false}}

/-- `failLoading` (`viewManager.ts:333-340`): fade the loading screen and, if
the failed view is the active one, hide it. -/
def failLoading (s : VMState) (tabName : String) : VMState :=
  let s₁ := fadeLoadingScreen s
  if s₁.currentView = some tabName then
    match alGet s₁.views tabName with
    | some v => {s₁ with views := alSet s₁.views tabName (hideV v)}
    | none => s₁
  else s₁

/-- The `on(LOAD_SUCCESS, ...)` handler registered by `openClosedTab`
(`viewManager.ts:326-329`): mark the view non-visible again and re-run
`showByName` for it. -/
def occReshow (s : VMState) (name : String) : VMState :=
  match alGet s.views name with
  | some v₂ =>
    showByName {s with views := alSet s.views name {v₂ with isVisible := false}} name
  | none => s

/-- Delivery of a `LOAD_SUCCESS` event for the view registered under `name`.
Modelled from the spec (§4.1): the view itself transitions to ready (first
paint done, errored cleared) before the event reaches the manager's
listeners, which then run in registration order: `makeView`'s
`once(LOAD_SUCCESS, activateView)`, the deep-link `once(LOAD_SUCCESS,
deeplinkSuccess)`, and `openClosedTab`'s `on(LOAD_SUCCESS, ...)` handler
(`occReshow`). -/
def deliverLoadSuccess (s : VMState) (name : String) : VMState :=
  match alGet s.views name with
  | none => s
  | some v =>
    let hadActivate := v.onceActivate
    let hadDl := v.dlSuccess
    let hadOcc := v.occListener
    let v₁ := { v with
      loading := false, ready := true, firstLoadDone := true,
      errored := false, onceActivate := false, dlSuccess := false }
    let s₁ := {s with views := alSet s.views name v₁}
    let s₂ := if hadActivate then activateView s₁ name else s₁
    let s₃ := if hadDl then deeplinkSuccess s₂ name else s₂
    if hadOcc then occReshow s₃ name else s₃

/-- Delivery of a `LOAD_FAILED` event for the view registered under `name`.
Modelled from the spec (§4.1): the view transitions Loading → Errored, then
the manager's listeners run in registration order: `makeView`'s
`on(LOAD_FAILED, failLoading)` and the deep-link `once(LOAD_FAILED,
deeplinkFailed)`. -/
def deliverLoadFailed (s : VMState) (name : String) : VMState :=
  match alGet s.views name with
  | none => s
  | some v =>
    let hadDl := v.dlFailed
    let v₁ := {v with loading := false, errored := true, dlFailed := false}
    let s₁ := {s with views := alSet s.views name v₁}
    let s₂ := failLoading s₁ name
    if hadDl then deeplinkFailed s₂ name else s₂

/-- Modelled from the spec: numeric comparison of one dotted-version segment
list against another, missing segments counting as zero
(`Utils.isVersionGreaterThanOrEqualTo`; `common/utils/util` is not part of
the sources). -/
def segGE : List Nat → List Nat → Bool
  | _, [] => true
  | [], b :: bs => decide (b = 0) && segGE [] bs
  | a :: as, b :: bs => decide (b < a) || (decide (a = b) && segGE as bs)

/-- Split a character list on the dot separator. -/
def splitDots : List Char → List (List Char)
  | [] => [[]]
  | c :: rest =>
    if c = '.' then [] :: splitDots rest
    else
      match splitDots rest with
      | x :: xs => (c :: x) :: xs
      | [] => [[c]]

/-- Numeric value of one dotted-version segment; a non-numeric or empty
segment counts as zero. -/
def segToNat (cs : List Char) : Nat :=
  if cs ≠ [] ∧ cs.all (fun c => c.isDigit) then
    cs.foldl (fun acc c => acc * 10 + (c.toNat - 48)) 0
  else 0

/-- Modelled from the spec: `Utils.isVersionGreaterThanOrEqualTo a b` — is
dotted version `a` at least `b`? -/
def verGE (a b : String) : Bool :=
  segGE ((splitDots a.data).map segToNat) ((splitDots b.data).map segToNat)

/-- JS `String.prototype.replace` with a string pattern: replace the first
occurrence only. -/
def jsReplaceFirst (s pat repl : String) : String :=
  match s.splitOn pat with
  | [] => s
  | [x] => x
  | x :: rest => x ++ repl ++ String.intercalate pat rest

/-- The target `(server, tab)` view a deep-link URL resolves to. Modelled
from the spec: `urlUtils.getView` (not part of the sources) yields the
matched tab view's derived `name`; `target` stands for the `urlWithSchema`
string assembled from the matched server's origin plus the link's path and
query (`viewManager.ts:535`). -/
structure TabViewRef where
  name : String
  target : String

/-- `handleDeepLink` (`viewManager.ts:529-561`), with the URL-resolution
collaborator abstracted as `resolve` (see `TabViewRef`). No match surfaces an
error box; a match in `closedViews` reopens via `openClosedTab`; a live,
initialized view on a server of version ≥ 6.0.0 receives a
`BROWSER_HISTORY_PUSH` and immediate `deeplinkSuccess`; otherwise the view is
re-armed and fully reloaded with the paired `once(LOAD_SUCCESS)` /
`once(LOAD_FAILED)` listeners registered. -/
def handleDeepLink (resolve : String → Option TabViewRef) (s : VMState)
    (url : String) : VMState :=
  if url = "" then s
  else
    match resolve url with
    | none => {s with errorBoxes := s.errorBoxes + 1}
    | some tv =>
      if alHas s.closedViews tv.name then openClosedTab s tv.name (some tv.target)
      else
        match alGet s.views tv.name with
        | none => s
        | some view =>
          if view.initialized && view.serverVersion.isSome &&
              verGE (view.serverVersion.getD "") "6.0.0" then
            let pathName := "/" ++ jsReplaceFirst tv.target view.srvUrl ""
            let s₁ := {s with historyPushes := s.historyPushes ++ [(view.name, pathName)]}
            deeplinkSuccess s₁ view.name
          else
            let v := { view with
              errored := false, loading := true, pendingUrl := some tv.target,
              dlSuccess := true, dlFailed := true }
            { s with
                views := alSet s.views tv.name v
                loadCalls := s.loadCalls ++ [(view.name, some tv.target)] }

/-! ## reloadConfiguration (`viewManager.ts:134-226`) -/

/-- The `ExtraData` computed per (server, tab) pair (`viewManager.ts:144-150`):
the freshly constructed `MattermostServer`, the tab, the derived view name
(via `getServerView`), and the open flag. The freshly constructed
`ServerInfo`'s remote version is not yet known. -/
structure Extra where
  srv : Srv
  tab : Tab
  viewName : String
  tabOpen : Bool
deriving DecidableEq, Repr

/-- `extraData(server, tab)` (`viewManager.ts:144-150`). -/
def extraData (server : TeamWithTabs) (t : Tab) : Extra :=
  { srv := ⟨server.name, server.url⟩
    tab := t
    viewName := getTabViewName server.name t.name
    tabOpen := t.isOpen }

/-- The keyed (TabTuple, ExtraData) pairs of a configuration
(`viewManager.ts:174-183`): per server, tabs sorted by `order`, each mapped
to `(tuple(new URL(x.url).href, t.name), extraData(x, t))`. -/
def configPairs (config : List TeamWithTabs) : List (TabTuple × Extra) :=
  config.flatMap
    (fun x => (sortTabs x.tabs).map (fun t => (keyOf x.url t.name, extraData x t)))

/-- The "should be open" half of the partition (`viewManager.ts:184`). -/
def openPairs (config : List TeamWithTabs) : List (TabTuple × Extra) :=
  ((configPairs config).partition (fun p => p.2.tabOpen)).1

/-- The "should be closed" half of the partition (`viewManager.ts:184`). -/
def closedPairs (config : List TeamWithTabs) : List (TabTuple × Extra) :=
  ((configPairs config).partition (fun p => p.2.tabOpen)).2

/-- The recycling update of `newOrRecycledEntry` (`viewManager.ts:154-157`):
`recycle.serverInfo = data.info; recycle.tab.server = data.srv` — rebind the
Server/ServerInfo references in place, everything else untouched. -/
def recycleUpd (v : MMView) (e : Extra) : MMView :=
  {v with serverVersion := none, srvName := e.srv.name, srvUrl := e.srv.url}

/-- The live views keyed by tuple (`viewManager.ts:169-172`):
`new Map(views.values().map(x => duad(x.tuple, x)))`. -/
def currentTupMap (s : VMState) : List (TabTuple × MMView) :=
  mapFrom ((alValues s.views).map (fun x => (x.tuple, x)))

/-- `map(newOrRecycledEntry)` over the open pairs (`viewManager.ts:152-163`,
186), threading the state effects of `makeView` (closed-record deletion,
fresh surface numbering, the `load` call) in iteration order. -/
def buildOpen (current : List (TabTuple × MMView)) :
    VMState → List (TabTuple × Extra) → VMState × List (TabTuple × MMView)
  | s, [] => (s, [])
  | s, (k, e) :: rest =>
    match alGet current k with
    | some recycle =>
      let (s', vs) := buildOpen current s rest
      (s', (k, recycleUpd recycle e) :: vs)
    | none =>
      let (s₁, v) := makeView s e.srv e.tab (some k.url)
      let (s', vs) := buildOpen current s₁ rest
      (s', (k, v) :: vs)

/-- The new tuple-keyed open map together with the threaded state
(`viewManager.ts:186`): `mapFrom(map(newOrRecycledEntry)(open))`. -/
def reloadOpenBuild (s : VMState) (config : List TeamWithTabs) :
    VMState × List (TabTuple × MMView) :=
  let (s', entries) := buildOpen (currentTupMap s) s (openPairs config)
  (s', mapFrom entries)

/-- The new tuple-keyed open map of a reconfiguration. -/
def reloadOpenMap (s : VMState) (config : List TeamWithTabs) :
    List (TabTuple × MMView) :=
  (reloadOpenBuild s config).2

/-- The tuple-keyed closed map (`viewManager.ts:187`): `mapFrom(closed)`. -/
def reloadClosedMap (config : List TeamWithTabs) : List (TabTuple × Extra) :=
  mapFrom (closedPairs config)

/-- The commit phase of `reloadConfiguration` (`viewManager.ts:190-207`):
destroy every live view whose tuple is no longer open, commit the new
name-keyed `views` map, and record the "should be closed" pairs in
`closedViews`. -/
def reloadCommit (s : VMState) (config : List TeamWithTabs) : VMState :=
  let current := currentTupMap s
  let s₁ := (reloadOpenBuild s config).1
  let viewsTup := (reloadOpenBuild s config).2
  let s₂ := { s₁ with
    destroyedSurfaces := s₁.destroyedSurfaces ++
      ((current.filter (fun (kv : TabTuple × MMView) => !(alHas viewsTup kv.1))).map
        (fun (kv : TabTuple × MMView) => kv.2.surfaceId)) }
  let s₃ := { s₂ with
    views := mapFrom ((alValues viewsTup).map (fun (x : MMView) => (x.name, x))) }
  { s₃ with
    closedViews :=
      (alValues (reloadClosedMap config)).foldl
        (fun m (e : Extra) => alSet m e.viewName (e.srv, e.tab)) s₃.closedViews }

/-- `focusedTuple` (`viewManager.ts:165-167`): the TabKey of the currently
active view, captured before the diff. -/
def focusedTuple (s : VMState) : Option TabTuple :=
  match s.currentView with
  | some cur => (alGet s.views cur).map (fun v => v.tuple)
  | none => none

/-- `reloadConfiguration` (`viewManager.ts:134-226`): commit the diff, then
run the focus logic — if the focused tuple is still known (it always is in
the pre-diff `current` map) and servers remain, clear `currentView` and run
`showInitial`; finally re-show the focused view when its tuple is still open,
else fall back to `showInitial`. Note the method never updates
`configServers` itself. -/
def reloadConfiguration (s : VMState) (config : List TeamWithTabs) : VMState :=
  let ft := focusedTuple s
  let current := currentTupMap s
  let viewsTup := reloadOpenMap s config
  let closedTup := reloadClosedMap config
  let s₄ := reloadCommit s config
  let s₅ :=
    match ft with
    | some t =>
      if alHas current t || alHas closedTup t then
        if config.isEmpty then s₄
        else showInitial {s₄ with currentView := none}
      else s₄
    | none => s₄
  match ft with
  | some t =>
    match alGet viewsTup t with
    | some w => showByName {s₅ with currentView := some w.name} w.name
    | none => showInitial s₅
  | none => showInitial s₅

/-! ## URL preview overlay (`viewManager.ts:373-433`)

The overlay subsystem touches only `this.urlViewCancel`, the overlay
`BrowserView`s attached to the main window, the per-overlay
`UPDATE_URL_VIEW_WIDTH` listener on `ipcMain`, and the auto-dismiss timer, so
it is modelled as its own state machine. Surfaces are numbered to track
identity. -/

/-- `SECOND` from `common/utils/constants` (not part of the sources): one
second in milliseconds. -/
def SECOND : Nat := 1000

/-- `URL_VIEW_DURATION = 10 * SECOND` (`viewManager.ts:40`). -/
def URL_VIEW_DURATION : Nat := 10 * SECOND

/-- One live URL preview overlay: its URL, the milliseconds remaining on its
auto-dismiss timer, and its surface identity. -/
structure UrlOverlay where
  url : String
  remainingMs : Nat
  surfaceId : Nat
deriving DecidableEq, Repr

/-- The URL-overlay state: the overlays attached to the main window, the
`urlViewCancel` slot (identified by the overlay it would cancel), the
registered width listeners, and the surface counter. -/
structure UVState where
  live : List UrlOverlay
  cancelSlot : Option Nat
  widthListeners : List Nat
  nextId : Nat
deriving DecidableEq, Repr

/-- The initial overlay state (no overlay, no pending cancel). -/
def uvInit : UVState := ⟨[], none, [], 0⟩

/-- `this.urlViewCancel()` (`viewManager.ts:427-431`): clear the timer,
remove the width listener, and run `hideView` (which unsets the slot and
tears the overlay down). -/
def runUrlViewCancel (s : UVState) : UVState :=
  match s.cancelSlot with
  | none => s
  | some id =>
    { live := s.live.filter (fun o => o.surfaceId ≠ id)
      cancelSlot := none
      widthListeners := s.widthListeners.filter (fun l => l ≠ id)
      nextId := s.nextId }

/-- `showURLView(url)` (`viewManager.ts:373-433`): first cancel any pending
overlay, then, for a non-empty URL, attach a fresh overlay with a width
listener, a `URL_VIEW_DURATION` auto-dismiss timer, and a new cancel
callback. -/
def showURLView (s : UVState) (url : String) : UVState :=
  let s₁ := if s.cancelSlot.isSome then runUrlViewCancel s else s
  if url = "" then s₁
  else
    { live := s₁.live ++ [⟨url, URL_VIEW_DURATION, s₁.nextId⟩]
      cancelSlot := some s₁.nextId
      widthListeners := s₁.widthListeners ++ [s₁.nextId]
      nextId := s₁.nextId + 1 }

/-- Passage of `n` milliseconds: each overlay whose timer elapses is torn
down by its `hideView` timeout callback (`viewManager.ts:397-406, 424-425`),
which unsets `urlViewCancel` but does not remove the width listener;
surviving overlays keep their remaining time. -/
def uvElapse (s : UVState) (n : Nat) : UVState :=
  { live := (s.live.filter (fun o => n < o.remainingMs)).map
      (fun o => {o with remainingMs := o.remainingMs - n})
    cancelSlot := if s.live.any (fun o => o.remainingMs ≤ n) then none else s.cancelSlot
    widthListeners := s.widthListeners
    nextId := s.nextId }

/-- An external event touching the overlay subsystem: an
`UPDATE_TARGET_URL` report (`show`) or the passage of time (`elapse`). -/
inductive UVEvent where
  | report (url : String)
  | elapse (n : Nat)

/-- One step of the overlay subsystem. -/
def uvStep (s : UVState) : UVEvent → UVState
  | UVEvent.report url => showURLView s url
  | UVEvent.elapse n => uvElapse s n

/-! ## Invariants and well-formedness predicates -/

/-- The view-manager invariant behind "at most one active view": the `views`
map has well-formed (duplicate-free) keys, and any visible view is the
current one. -/
def vmInv (s : VMState) : Prop :=
  (s.views.map Prod.fst).Nodup ∧
    ∀ p ∈ s.views, p.2.isVisible = true → s.currentView = some p.1

/-- The number of visible views. -/
def countVisible (s : VMState) : Nat :=
  (s.views.filter (fun p => p.2.isVisible)).length

/-- Every entry of `views` is registered under its view's derived name
(`addView` registers `view.name`; reconciliation commits by `x.name`). -/
def wellKeyed (s : VMState) : Prop :=
  ∀ p ∈ s.views, p.2.name = p.1

/-- The key sets of `views` and `closedViews` are disjoint. -/
def disjointMaps (s : VMState) : Prop :=
  ∀ p ∈ s.views, alHas s.closedViews p.1 = false

/-- `currentView`, when set, names a live view (it is not dangling). -/
def currentViewOK (s : VMState) : Prop :=
  match s.currentView with
  | some nm => alHas s.views nm = true
  | none => True

/-- Does the configuration contain an open tab with TabKey `K`? -/
def keyOpenIn (config : List TeamWithTabs) (K : TabTuple) : Bool :=
  config.any (fun x => x.tabs.any (fun t => t.isOpen && (keyOf x.url t.name = K)))

/-- Does the configuration contain a tab (open or closed) with TabKey `K`? -/
def keyIn (config : List TeamWithTabs) (K : TabTuple) : Bool :=
  config.any (fun x => x.tabs.any (fun t => keyOf x.url t.name = K))

/-- All derived view names of a configuration's (server, tab) pairs. -/
def configNames (config : List TeamWithTabs) : List String :=
  config.flatMap (fun x => x.tabs.map (fun t => getTabViewName x.name t.name))

/-- All TabKeys of a configuration's (server, tab) pairs. -/
def configKeys (config : List TeamWithTabs) : List TabTuple :=
  config.flatMap (fun x => x.tabs.map (fun t => keyOf x.url t.name))

/-- Two tabs equal up to their `order` value. -/
def tabSameModOrder (t₁ t₂ : Tab) : Prop :=
  t₁.name = t₂.name ∧ t₁.isOpen = t₂.isOpen

/-- Two servers equal up to `order` values (their own and their tabs'). -/
def srvSameModOrder (a b : TeamWithTabs) : Prop :=
  a.name = b.name ∧ a.url = b.url ∧ List.Forall₂ tabSameModOrder a.tabs b.tabs

/-- Two configurations that differ only in tab/server `order` values. -/
def configsSameModOrder (c₁ c₂ : List TeamWithTabs) : Prop :=
  List.Forall₂ srvSameModOrder c₁ c₂

/-- A view stripped of its visibility flag — two views equal after `stripVis`
agree on everything except `isVisible`. -/
def stripVis (v : MMView) : MMView := {v with isVisible := false}

/-- Everything of the manager state except `views`, `currentView` and
`loadingScreenState` — the part that pure view-activation steps
(`showByName`, `showInitial`, `activateView`) never touch. -/
def ghostState (s : VMState) :
    List TeamWithTabs × Option Nat × List (String × (Srv × Tab)) × Nat ×
      List Nat × List (String × Option String) × List (String × String) ×
      List String × List String × Nat :=
  (s.configServers, s.lastActiveServer, s.closedViews, s.nextSurface,
    s.destroyedSurfaces, s.loadCalls, s.historyPushes, s.dlSuccessCalls,
    s.dlFailedCalls, s.errorBoxes)

/-- A live view whose name matches a configured (server, tab) pair's derived
name carries that pair's TabKey (rules out accidental name collisions between
unrelated servers). -/
def namesMatchKeys (s : VMState) (config : List TeamWithTabs) : Prop :=
  ∀ v ∈ alValues s.views, ∀ srv ∈ config, ∀ t ∈ srv.tabs,
    v.name = getTabViewName srv.name t.name → v.tuple = keyOf srv.url t.name

/-- No two distinct (server, tab) occurrences of a configuration derive the
same view name (rules out accidental `serverName:tabName` collisions). -/
def configNamesInj (config : List TeamWithTabs) : Prop :=
  ∀ srv ∈ config, ∀ t ∈ srv.tabs, ∀ srv' ∈ config, ∀ t' ∈ srv'.tabs,
    getTabViewName srv.name t.name = getTabViewName srv'.name t'.name →
      srv = srv' ∧ t = t'

/-- No two distinct (server, tab) occurrences of a configuration carry the
same TabKey. -/
def configKeysInj (config : List TeamWithTabs) : Prop :=
  ∀ srv ∈ config, ∀ t ∈ srv.tabs, ∀ srv' ∈ config, ∀ t' ∈ srv'.tabs,
    keyOf srv.url t.name = keyOf srv'.url t'.name → srv = srv' ∧ t = t'

/-! ## Concrete example states

Small concrete servers, views and states used to witness the theorems and to
exhibit counterexamples. -/

/-- A view manager with no servers configured and nothing loaded (the state
after construction, `viewManager.ts:66-74`). -/
def vmInit : VMState :=
  { configServers := []
    lastActiveServer := none
    views := []
    closedViews := []
    currentView := none
    loadingScreenState := LSState.hidden
    nextSurface := 0
    destroyedSurfaces := []
    loadCalls := []
    historyPushes := []
    dlSuccessCalls := []
    dlFailedCalls := []
    errorBoxes := 0 }

/-- Server `A`. -/
def srvA : Srv := ⟨"A", "http://a.example.com/"⟩

/-- The `messaging` tab of server `A`, closed. -/
def tabMessagingClosed : Tab := ⟨"messaging", 0, false⟩

/-- A healthy, ready, visible view `A:messaging`. -/
def viewMessaging : MMView :=
  { name := "A:messaging"
    tuple := ⟨"http://a.example.com/", "messaging"⟩
    srvName := "A"
    srvUrl := "http://a.example.com/"
    serverVersion := none
    isVisible := true
    errored := false
    initialized := true
    ready := true
    firstLoadDone := true
    loading := false
    pendingUrl := none
    surfaceId := 0
    onceActivate := false
    dlSuccess := false
    dlFailed := false
    occListener := false }

/-- A hidden, errored view `A:focalboard`. -/
def viewFocalboardErrored : MMView :=
  { viewMessaging with
    name := "A:focalboard"
    tuple := ⟨"http://a.example.com/", "focalboard"⟩
    isVisible := false
    errored := true
    ready := false
    surfaceId := 1 }

/-- A hidden, healthy view `A:focalboard`. -/
def viewFocalboard : MMView :=
  { viewFocalboardErrored with errored := false, ready := true }

/-- A state showing `A:messaging` while `A:focalboard` is errored. -/
def stateWithErrored : VMState :=
  { vmInit with
    views := [("A:messaging", viewMessaging), ("A:focalboard", viewFocalboardErrored)]
    currentView := some "A:messaging"
    nextSurface := 2 }

/-- A state showing `A:messaging` with a healthy hidden `A:focalboard`. -/
def stateTwoViews : VMState :=
  { vmInit with
    views := [("A:messaging", viewMessaging), ("A:focalboard", viewFocalboard)]
    currentView := some "A:messaging"
    nextSurface := 2 }

/-- A state with the closed tab `A:messaging` on record. -/
def stateClosedTab : VMState :=
  { vmInit with closedViews := [("A:messaging", (srvA, tabMessagingClosed))] }

/-- Server `A`'s configuration with `messaging` (order 0) and `focalboard`
(order 1), both open. -/
def teamABothOpen : TeamWithTabs :=
  ⟨"A", "http://a.example.com/", 0, some 0,
    [⟨"messaging", 0, true⟩, ⟨"focalboard", 1, true⟩]⟩

/-- The same configuration with swapped `order` values. -/
def teamABothOpenSwapped : TeamWithTabs :=
  ⟨"A", "http://a.example.com/", 0, some 0,
    [⟨"messaging", 1, true⟩, ⟨"focalboard", 0, true⟩]⟩

/-- The same configuration with `messaging` closed. -/
def teamAMessagingClosed : TeamWithTabs :=
  ⟨"A", "http://a.example.com/", 0, some 0,
    [⟨"messaging", 0, false⟩, ⟨"focalboard", 1, true⟩]⟩

/-- A state running `teamABothOpen` with `A:messaging` active. -/
def stateBothOpen : VMState :=
  { stateTwoViews with
    configServers := [teamABothOpen]
    lastActiveServer := some 0 }

/-- An initialized live view on a server reporting version 6.0.0. -/
def viewOnV6 : MMView := {viewMessaging with serverVersion := some "6.0.0"}

/-- An initialized live view on a server reporting version 5.9.0. -/
def viewOnV59 : MMView := {viewMessaging with serverVersion := some "5.9.0"}

/-- A state with `A:messaging` live on a 6.0.0 server. -/
def stateV6 : VMState :=
  { vmInit with
    views := [("A:messaging", viewOnV6)]
    currentView := some "A:messaging"
    nextSurface := 1 }

/-- A state with `A:messaging` live on a 5.9.0 server. -/
def stateV59 : VMState :=
  { vmInit with
    views := [("A:messaging", viewOnV59)]
    currentView := some "A:messaging"
    nextSurface := 1 }

/-- A deep-link resolver that maps every URL to `A:messaging` with target
`http://a.example.com/team`. -/
def resolveToMessaging : String → Option TabViewRef :=
  fun _ => some ⟨"A:messaging", "http://a.example.com/team"⟩

/-- A deep-link resolver that matches no configured server. -/
def resolveNone : String → Option TabViewRef :=
  fun _ => none

/-! ## Association-list and map lemmas -/

section AListLemmas

variable {α : Type u} {β : Type v} [DecidableEq α]

theorem alGet_alSet_self (m : List (α × β)) (k : α) (v : β) :
    alGet (alSet m k v) k = some v := by
  induction m with
  | nil => simp [alSet, alGet]
  | cons p rest ih =>
    obtain ⟨k₀, v₀⟩ := p
    by_cases h : k₀ = k
    · subst h; simp [alSet, alGet]
    · simp [alSet, alGet, h, ih]

theorem alGet_alSet_ne (m : List (α × β)) (k k' : α) (v : β) (h : k ≠ k') :
    alGet (alSet m k v) k' = alGet m k' := by
  induction m with
  | nil => simp [alSet, alGet, h]
  | cons p rest ih =>
    obtain ⟨k₀, v₀⟩ := p
    by_cases hk : k₀ = k
    · subst hk
      simp [alSet, alGet, h]
    · simp only [alSet, if_neg hk]
      by_cases hk' : k₀ = k'
      · subst hk'; simp [alGet]
      · simp [alGet, hk', ih]

theorem alGet_alDel (m : List (α × β)) (k k' : α) :
    alGet (alDel m k) k' = if k' = k then none else alGet m k' := by
  induction m with
  | nil => by_cases h : k' = k <;> simp [alDel, alGet, h]
  | cons p rest ih =>
    obtain ⟨k₀, v₀⟩ := p
    by_cases hk : k₀ = k
    · subst hk
      have hdrop : alDel ((k₀, v₀) :: rest) k₀ = alDel rest k₀ := by
        simp [alDel, List.filter_cons]
      rw [hdrop, ih]
      by_cases hk' : k' = k₀
      · simp [hk']
      · simp only [if_neg hk', alGet]
        rw [if_neg (fun h => hk' h.symm)]
    · have hkeep : alDel ((k₀, v₀) :: rest) k = (k₀, v₀) :: alDel rest k := by
        simp [alDel, List.filter_cons, hk]
      rw [hkeep]
      by_cases hk' : k₀ = k'
      · subst hk'
        simp [alGet, hk]
      · simp only [alGet, if_neg hk']
        exact ih

theorem mem_of_alGet_eq_some {m : List (α × β)} {k : α} {v : β}
    (h : alGet m k = some v) : (k, v) ∈ m := by
  induction m with
  | nil => simp [alGet] at h
  | cons p rest ih =>
    obtain ⟨k₀, v₀⟩ := p
    by_cases hk : k₀ = k
    · subst hk
      simp [alGet] at h
      subst h
      exact List.mem_cons_self _ _
    · simp only [alGet, if_neg hk] at h
      exact List.mem_cons_of_mem _ (ih h)

theorem alGet_eq_some_of_mem_nodup {m : List (α × β)} {k : α} {v : β}
    (hmem : (k, v) ∈ m) (hnodup : (m.map Prod.fst).Nodup) :
    alGet m k = some v := by
  induction m with
  | nil => simp at hmem
  | cons p rest ih =>
    obtain ⟨k₀, v₀⟩ := p
    simp only [List.map_cons, List.nodup_cons] at hnodup
    rcases List.mem_cons.mp hmem with h | h
    · injection h with h₁ h₂
      subst h₁; subst h₂
      simp [alGet]
    · have hk : k₀ ≠ k := by
        intro hk
        subst hk
        exact hnodup.1 (List.mem_map_of_mem Prod.fst h)
      simp only [alGet, if_neg hk]
      exact ih h hnodup.2

theorem alHas_iff_mem_keys {m : List (α × β)} {k : α} :
    alHas m k = true ↔ k ∈ m.map Prod.fst := by
  induction m with
  | nil => simp [alHas, alGet]
  | cons p rest ih =>
    obtain ⟨k₀, v₀⟩ := p
    by_cases hk : k₀ = k
    · subst hk
      simp [alHas, alGet]
    · have heq : alHas ((k₀, v₀) :: rest) k = alHas rest k := by
        simp [alHas, alGet, hk]
      rw [heq, ih]
      simp only [List.map_cons, List.mem_cons]
      constructor
      · exact Or.inr
      · rintro (h | h)
        · exact absurd h.symm hk
        · exact h

theorem alGet_eq_none_of_not_has {m : List (α × β)} {k : α}
    (h : alHas m k = false) : alGet m k = none := by
  unfold alHas at h
  cases hg : alGet m k with
  | none => rfl
  | some v => rw [hg] at h; simp at h

theorem alSet_eq_append_of_not_has {m : List (α × β)} {k : α} (v : β)
    (h : alHas m k = false) : alSet m k v = m ++ [(k, v)] := by
  induction m with
  | nil => simp [alSet]
  | cons p rest ih =>
    obtain ⟨k₀, v₀⟩ := p
    by_cases hk : k₀ = k
    · subst hk; simp [alHas, alGet] at h
    · simp only [alHas, alGet, if_neg hk] at h
      simp only [alSet, if_neg hk, List.cons_append, List.cons.injEq, true_and]
      exact ih h

theorem alSet_keys_of_has {m : List (α × β)} {k : α} (v : β)
    (h : alHas m k = true) : (alSet m k v).map Prod.fst = m.map Prod.fst := by
  induction m with
  | nil => simp [alHas, alGet] at h
  | cons p rest ih =>
    obtain ⟨k₀, v₀⟩ := p
    by_cases hk : k₀ = k
    · subst hk; simp [alSet]
    · simp only [alHas, alGet, if_neg hk] at h
      simp only [alSet, if_neg hk, List.map_cons, List.cons.injEq, true_and]
      exact ih h

theorem mem_alSet_of_mem {m : List (α × β)} {p : α × β} {k : α} {v : β}
    (h : p ∈ alSet m k v) : p ∈ m ∨ p = (k, v) := by
  induction m with
  | nil => simp [alSet] at h; exact Or.inr h
  | cons q rest ih =>
    obtain ⟨k₀, v₀⟩ := q
    by_cases hk : k₀ = k
    · subst hk
      simp only [alSet, if_pos rfl] at h
      rcases List.mem_cons.mp h with h | h
      · exact Or.inr h
      · exact Or.inl (List.mem_cons_of_mem _ h)
    · simp only [alSet, if_neg hk] at h
      rcases List.mem_cons.mp h with h | h
      · exact Or.inl (by rw [h]; exact List.mem_cons_self _ _)
      · rcases ih h with h' | h'
        · exact Or.inl (List.mem_cons_of_mem _ h')
        · exact Or.inr h'

end AListLemmas

section MapFromLemmas

variable {α : Type u} {β : Type v} [DecidableEq α]

theorem foldl_alSet_mem {xs : List (α × β)} {acc : List (α × β)} {p : α × β}
    (h : p ∈ xs.foldl (fun m kv => alSet m kv.1 kv.2) acc) :
    p ∈ acc ∨ p ∈ xs := by
  induction xs generalizing acc with
  | nil => simp at h; exact Or.inl h
  | cons q rest ih =>
    simp only [List.foldl_cons] at h
    rcases ih h with h' | h'
    · rcases mem_alSet_of_mem h' with h'' | h''
      · exact Or.inl h''
      · exact Or.inr (h'' ▸ List.mem_cons_self _ _)
    · exact Or.inr (List.mem_cons_of_mem _ h')

theorem mem_of_mem_mapFrom {xs : List (α × β)} {p : α × β}
    (h : p ∈ mapFrom xs) : p ∈ xs := by
  have h₀ : p ∈ xs.foldl (fun m kv => alSet m kv.1 kv.2) [] := h
  rcases foldl_alSet_mem h₀ with h' | h'
  · simp at h'
  · exact h'

theorem alHas_alSet_iff {m : List (α × β)} {k k' : α} {v : β} :
    alHas (alSet m k v) k' = true ↔ (k' = k ∨ alHas m k' = true) := by
  by_cases hk : k = k'
  · subst hk
    simp [alHas, alGet_alSet_self]
  · unfold alHas
    rw [alGet_alSet_ne m k k' v hk]
    constructor
    · exact fun h => Or.inr h
    · rintro (h | h)
      · exact absurd h.symm hk
      · exact h

theorem alHas_foldl_alSet {xs : List (α × β)} {acc : List (α × β)} {k : α} :
    alHas (xs.foldl (fun m kv => alSet m kv.1 kv.2) acc) k = true ↔
      (alHas acc k = true ∨ k ∈ xs.map Prod.fst) := by
  induction xs generalizing acc with
  | nil => simp
  | cons q rest ih =>
    simp only [List.foldl_cons, List.map_cons, List.mem_cons]
    rw [ih]
    rw [alHas_alSet_iff]
    tauto

theorem alHas_mapFrom_iff {xs : List (α × β)} {k : α} :
    alHas (mapFrom xs) k = true ↔ k ∈ xs.map Prod.fst := by
  unfold mapFrom
  rw [alHas_foldl_alSet]
  simp [alHas, alGet]

theorem alHas_of_mem {m : List (α × β)} {p : α × β} (h : p ∈ m) :
    alHas m p.1 = true :=
  alHas_iff_mem_keys.mpr (List.mem_map_of_mem Prod.fst h)

theorem foldl_alSet_eq_append {xs acc : List (α × β)}
    (hdisj : ∀ k ∈ xs.map Prod.fst, alHas acc k = false)
    (hnodup : (xs.map Prod.fst).Nodup) :
    xs.foldl (fun m kv => alSet m kv.1 kv.2) acc = acc ++ xs := by
  induction xs generalizing acc with
  | nil => simp
  | cons q rest ih =>
    obtain ⟨k, v⟩ := q
    simp only [List.foldl_cons]
    simp only [List.map_cons, List.nodup_cons] at hnodup
    rw [alSet_eq_append_of_not_has v (hdisj k (by simp))]
    rw [ih]
    · simp
    · intro k' hk'
      by_cases h : k' = k
      · subst h; exact absurd hk' hnodup.1
      · cases hg : alHas (acc ++ [(k, v)]) k' with
        | false => rfl
        | true =>
          exfalso
          have hmem := alHas_iff_mem_keys.mp hg
          rcases List.mem_map.mp hmem with ⟨p, hp, hpk⟩
          rcases List.mem_append.mp hp with hm | hm
          · have : alHas acc k' = true := hpk ▸ alHas_of_mem hm
            rw [hdisj k' (by simp [hk'])] at this
            exact Bool.noConfusion this
          · simp at hm
            subst hm
            simp at hpk
            exact h hpk.symm
    · exact hnodup.2

theorem mapFrom_eq_self_of_nodup {xs : List (α × β)}
    (hnodup : (xs.map Prod.fst).Nodup) : mapFrom xs = xs := by
  unfold mapFrom
  rw [foldl_alSet_eq_append _ hnodup]
  · simp
  · intro k _
    simp [alHas, alGet]

end MapFromLemmas

/-! ## URL preview overlay: single instance and auto-dismiss (C9, C10) -/

/-- The overlay-subsystem invariant: the `urlViewCancel` slot is set exactly
when one overlay is live, and then it targets that overlay; otherwise no
overlay is attached. -/
def uvInv (s : UVState) : Bool :=
  match s.cancelSlot with
  | some id =>
    match s.live with
    | [o] => o.surfaceId = id
    | _ => false
  | none => s.live.isEmpty

theorem uvInv_live_shape {s : UVState} (h : uvInv s = true) :
    (s.cancelSlot = none ∧ s.live = []) ∨
      (∃ id o, s.cancelSlot = some id ∧ s.live = [o] ∧ o.surfaceId = id) := by
  unfold uvInv at h
  cases hc : s.cancelSlot with
  | none =>
    rw [hc] at h
    exact Or.inl ⟨rfl, List.isEmpty_iff.mp h⟩
  | some id =>
    rw [hc] at h
    cases hl : s.live with
    | nil => rw [hl] at h; simp at h
    | cons o rest =>
      cases rest with
      | nil =>
        rw [hl] at h
        simp only [decide_eq_true_eq] at h
        exact Or.inr ⟨id, o, rfl, rfl, h⟩
      | cons o' rest' => rw [hl] at h; simp at h

theorem runUrlViewCancel_clears {s : UVState} (h : uvInv s = true) :
    (runUrlViewCancel s).live = [] ∧ (runUrlViewCancel s).cancelSlot = none ∧
      uvInv (runUrlViewCancel s) = true := by
  rcases uvInv_live_shape h with ⟨hc, hl⟩ | ⟨id, o, hc, hl, hid⟩
  · unfold runUrlViewCancel
    rw [hc]
    exact ⟨hl, hc, h⟩
  · have hres : runUrlViewCancel s =
        { live := s.live.filter (fun o => o.surfaceId ≠ id)
          cancelSlot := none
          widthListeners := s.widthListeners.filter (fun l => l ≠ id)
          nextId := s.nextId } := by
      unfold runUrlViewCancel
      rw [hc]
    have hempty : s.live.filter (fun o => o.surfaceId ≠ id) = [] := by
      rw [hl]
      simp [hid]
    have hres₂ : runUrlViewCancel s =
        { live := []
          cancelSlot := none
          widthListeners := s.widthListeners.filter (fun l => l ≠ id)
          nextId := s.nextId } := by
      rw [hres, hempty]
    rw [hres₂]
    exact ⟨rfl, rfl, rfl⟩

theorem showURLView_pre_live {s : UVState} (h : uvInv s = true) :
    (if s.cancelSlot.isSome then runUrlViewCancel s else s).live = [] ∧
      uvInv (if s.cancelSlot.isSome then runUrlViewCancel s else s) = true := by
  rcases uvInv_live_shape h with ⟨hc, hl⟩ | ⟨id, o, hc, hl, hid⟩
  · rw [hc]
    exact ⟨hl, h⟩
  · rw [hc]
    simp only [Option.isSome_some, if_pos]
    have := runUrlViewCancel_clears h
    exact ⟨this.1, this.2.2⟩

theorem showURLView_nonempty {s : UVState} {u : String} (h : uvInv s = true)
    (hu : u ≠ "") :
    ∃ id, (showURLView s u).live = [⟨u, URL_VIEW_DURATION, id⟩] ∧
      (showURLView s u).cancelSlot = some id ∧ uvInv (showURLView s u) = true := by
  obtain ⟨hlive, _⟩ := showURLView_pre_live h
  unfold showURLView
  rw [if_neg hu]
  refine ⟨(if s.cancelSlot.isSome then runUrlViewCancel s else s).nextId, ?_, rfl, ?_⟩
  · rw [hlive]
    simp
  · simp [uvInv, hlive]

theorem uvInv_showURLView {s : UVState} (u : String) (h : uvInv s = true) :
    uvInv (showURLView s u) = true := by
  by_cases hu : u = ""
  · subst hu
    obtain ⟨hlive, hinv⟩ := showURLView_pre_live h
    unfold showURLView
    rw [if_pos rfl]
    exact hinv
  · exact (showURLView_nonempty h hu).choose_spec.2.2

theorem uvInv_uvElapse {s : UVState} (n : Nat) (h : uvInv s = true) :
    uvInv (uvElapse s n) = true := by
  rcases uvInv_live_shape h with ⟨hc, hl⟩ | ⟨id, o, hc, hl, hid⟩
  · unfold uvElapse
    rw [hc, hl]
    simp [uvInv]
  · unfold uvElapse
    rw [hc, hl]
    by_cases hn : o.remainingMs ≤ n
    · have hlt : ¬ (n < o.remainingMs) := not_lt.mpr hn
      simp [uvInv, hn, hlt]
    · have hlt : n < o.remainingMs := not_le.mp hn
      simp [uvInv, hn, hlt, hid]

theorem uvInv_uvStep {s : UVState} (e : UVEvent) (h : uvInv s = true) :
    uvInv (uvStep s e) = true := by
  cases e with
  | report u => exact uvInv_showURLView u h
  | elapse n => exact uvInv_uvElapse n h

theorem uvInv_run (evs : List UVEvent) :
    uvInv (evs.foldl uvStep uvInit) = true := by
  have hbase : uvInv uvInit = true := rfl
  have : ∀ (l : List UVEvent) (s : UVState), uvInv s = true →
      uvInv (l.foldl uvStep s) = true := by
    intro l
    induction l with
    | nil => intro s hs; exact hs
    | cons e rest ih =>
      intro s hs
      exact ih (uvStep s e) (uvInv_uvStep e hs)
  exact this evs uvInit hbase

theorem live_length_le_one_of_uvInv {s : UVState} (h : uvInv s = true) :
    s.live.length ≤ 1 := by
  rcases uvInv_live_shape h with ⟨_, hl⟩ | ⟨_, _, _, hl, _⟩ <;> simp [hl]

/-- C9: at most one URL preview overlay is live at any time — every
`showURLView` call with a non-empty URL first cancels any pending overlay
(clearing its timer and width listener) before creating a new one, so two
successive calls with different URLs leave exactly one live overlay
reflecting the second URL; each overlay auto-dismisses after exactly
10 seconds (`URL_VIEW_DURATION = 10 * SECOND`) unless cancelled earlier. -/
theorem C9_url_overlay_single_instance :
    URL_VIEW_DURATION = 10 * SECOND ∧
    (∀ evs : List UVEvent, ((evs.foldl uvStep uvInit).live).length ≤ 1) ∧
    (∀ (s : UVState) (u₁ u₂ : String), uvInv s = true → u₂ ≠ "" →
      ((showURLView (showURLView s u₁) u₂).live).map (fun o => o.url) = [u₂]) ∧
    (∀ (s : UVState) (u : String), uvInv s = true → u ≠ "" →
      ((showURLView s u).live).map (fun o => (o.url, o.remainingMs)) =
          [(u, URL_VIEW_DURATION)] ∧
        (uvStep (showURLView s u) (UVEvent.elapse URL_VIEW_DURATION)).live = [] ∧
        (∀ n, n < URL_VIEW_DURATION →
          ((uvStep (showURLView s u) (UVEvent.elapse n)).live).map (fun o => o.url) =
            [u])) := by
  refine ⟨rfl, ?_, ?_, ?_⟩
  · intro evs
    exact live_length_le_one_of_uvInv (uvInv_run evs)
  · intro s u₁ u₂ hs hu₂
    obtain ⟨id, hl, _, _⟩ :=
      showURLView_nonempty (uvInv_showURLView u₁ hs) hu₂
    rw [hl]
    rfl
  · intro s u hs hu
    obtain ⟨id, hl, _, _⟩ := showURLView_nonempty hs hu
    refine ⟨by rw [hl]; rfl, ?_, ?_⟩
    · show (uvElapse (showURLView s u) URL_VIEW_DURATION).live = []
      unfold uvElapse
      rw [hl]
      simp
    · intro n hn
      show ((uvElapse (showURLView s u) n).live).map (fun o => o.url) = [u]
      unfold uvElapse
      rw [hl]
      simp [hn, Nat.not_le.mpr hn]

/-- Witness for C9 at concrete inputs. -/
theorem C9_url_overlay_single_instance_witness :
    (uvInv (showURLView uvInit "http://old.example.com/") = true ∧
        ("http://x.example.com/" : String) ≠ "") ∧
      ((showURLView (showURLView (showURLView uvInit "http://old.example.com/")
          "http://w.example.com/") "http://x.example.com/").live).map
          (fun o => o.url) = ["http://x.example.com/"] := by
  have h₁ : uvInv (showURLView uvInit "http://old.example.com/") = true := by decide
  have h₂ : ("http://x.example.com/" : String) ≠ "" := by decide
  exact ⟨⟨h₁, h₂⟩,
    (C9_url_overlay_single_instance.2.2.1)
      (showURLView uvInit "http://old.example.com/")
      "http://w.example.com/" "http://x.example.com/" h₁ h₂⟩

/-- C10: calling `showURLView` with an empty URL cancels any pending overlay
(clearing its timeout and removing its width listener, tearing the overlay
down) and creates no new overlay, leaving `urlViewCancel` unset — an empty
hover-target report acts purely as a dismiss operation. -/
theorem C10_empty_url_dismisses (s : UVState) (h : uvInv s = true) :
    (showURLView s "").cancelSlot = none ∧
      (showURLView s "").live = [] ∧
      (showURLView s "").nextId = s.nextId ∧
      (∀ id, s.cancelSlot = some id →
        (showURLView s "").widthListeners =
          s.widthListeners.filter (fun l => l ≠ id)) ∧
      (s.cancelSlot = none → showURLView s "" = s) := by
  rcases uvInv_live_shape h with ⟨hc, hl⟩ | ⟨id, o, hc, hl, hid⟩
  · have hshow : showURLView s "" = s := by
      unfold showURLView
      rw [hc]
      rfl
    rw [hshow]
    refine ⟨hc, hl, rfl, ?_, fun _ => rfl⟩
    intro id hid
    rw [hc] at hid
    exact Option.noConfusion hid
  · have hshow : showURLView s "" = runUrlViewCancel s := by
      unfold showURLView
      rw [hc]
      rfl
    have hcanc : runUrlViewCancel s =
        { live := s.live.filter (fun o => o.surfaceId ≠ id)
          cancelSlot := none
          widthListeners := s.widthListeners.filter (fun l => l ≠ id)
          nextId := s.nextId } := by
      unfold runUrlViewCancel
      rw [hc]
    rw [hshow, hcanc]
    refine ⟨rfl, ?_, rfl, ?_, ?_⟩
    · rw [hl]
      simp [hid]
    · intro id' hid'
      rw [hc] at hid'
      cases hid'
      rfl
    · intro hnone
      rw [hc] at hnone
      exact Option.noConfusion hnone

/-- Witness for C10 at a concrete state with a pending overlay. -/
theorem C10_empty_url_dismisses_witness :
    uvInv (showURLView uvInit "http://x.example.com/") = true ∧
      (showURLView (showURLView uvInit "http://x.example.com/") "").cancelSlot =
        none := by
  have h : uvInv (showURLView uvInit "http://x.example.com/") = true := by decide
  exact ⟨h, (C10_empty_url_dismisses (showURLView uvInit "http://x.example.com/") h).1⟩

/-! ## showByName lemmas -/

theorem showByName_miss {s : VMState} {n : String}
    (h : alGet s.views n = none) : showByName s n = s := by
  unfold showByName
  rw [h]

theorem showByName_visible {s : VMState} {n : String} {v : MMView}
    (h : alGet s.views n = some v) (hvis : v.isVisible = true) :
    showByName s n = s := by
  unfold showByName
  rw [h]
  simp [hvis]

theorem showByName_main {s : VMState} {n : String} {v : MMView}
    (h : alGet s.views n = some v) (hvis : v.isVisible = false) :
    showByName s n =
      (if v.errored then {hidePrev s n with currentView := some n}
       else
         let s₃ := { {hidePrev s n with currentView := some n} with
           views := alSet {hidePrev s n with currentView := some n}.views n (showV v) }
         if needsLoadingScreen v then showLoadingScreen s₃ else s₃) := by
  unfold showByName
  rw [h]
  simp [hvis]

theorem hidePrev_currentView (s : VMState) (n : String) :
    (hidePrev s n).currentView = s.currentView := by
  cases hcv : s.currentView with
  | none => simp only [hidePrev, hcv]
  | some cur =>
    simp only [hidePrev, hcv]
    by_cases hc : cur ≠ n
    · rw [if_pos hc]
      cases hg : alGet s.views cur <;> simp [hcv]
    · rw [if_neg hc, hcv]

theorem hidePrev_get_name (s : VMState) (n : String) :
    alGet (hidePrev s n).views n = alGet s.views n := by
  cases hcv : s.currentView with
  | none => simp only [hidePrev, hcv]
  | some cur =>
    simp only [hidePrev, hcv]
    by_cases hc : cur ≠ n
    · rw [if_pos hc]
      cases hg : alGet s.views cur with
      | none => rfl
      | some prev =>
        simp only []
        exact alGet_alSet_ne _ _ _ _ hc
    · rw [if_neg hc]

theorem hidePrev_get_cur {s : VMState} {n cur : String} {prev : MMView}
    (hcv : s.currentView = some cur) (hc : cur ≠ n)
    (hg : alGet s.views cur = some prev) :
    alGet (hidePrev s n).views cur = some (hideV prev) := by
  simp only [hidePrev, hcv, if_pos hc, hg]
  exact alGet_alSet_self _ _ _

theorem hidePrev_keys (s : VMState) (n : String) :
    (hidePrev s n).views.map Prod.fst = s.views.map Prod.fst := by
  cases hcv : s.currentView with
  | none => simp only [hidePrev, hcv]
  | some cur =>
    simp only [hidePrev, hcv]
    by_cases hc : cur ≠ n
    · rw [if_pos hc]
      cases hg : alGet s.views cur with
      | none => rfl
      | some prev =>
        simp only []
        exact alSet_keys_of_has _ (by unfold alHas; rw [hg]; rfl)
    · rw [if_neg hc]

theorem hidePrev_mem {s : VMState} {n : String} {p : String × MMView}
    (hp : p ∈ (hidePrev s n).views) :
    p ∈ s.views ∨
      (∃ cur prev, s.currentView = some cur ∧ cur ≠ n ∧
        alGet s.views cur = some prev ∧ p = (cur, hideV prev)) := by
  cases hcv : s.currentView with
  | none =>
    simp only [hidePrev, hcv] at hp
    exact Or.inl hp
  | some cur =>
    simp only [hidePrev, hcv] at hp
    by_cases hc : cur ≠ n
    · rw [if_pos hc] at hp
      cases hg : alGet s.views cur with
      | none => rw [hg] at hp; exact Or.inl hp
      | some prev =>
        rw [hg] at hp
        simp only [] at hp
        rcases mem_alSet_of_mem hp with h | h
        · exact Or.inl h
        · exact Or.inr ⟨cur, prev, rfl, hc, hg, h⟩
    · rw [if_neg hc] at hp
      exact Or.inl hp

theorem hidePrev_no_visible {s : VMState} {n : String} {v : MMView}
    (hinv : vmInv s) (hget : alGet s.views n = some v)
    (hvis : v.isVisible = false) :
    ∀ p ∈ (hidePrev s n).views, p.2.isVisible = false := by
  obtain ⟨hnodup, hvisOK⟩ := hinv
  intro p hp
  cases hb : p.2.isVisible with
  | false => rfl
  | true =>
    exfalso
    have hnodup' : ((hidePrev s n).views.map Prod.fst).Nodup := by
      rw [hidePrev_keys]; exact hnodup
    have hgall : alGet (hidePrev s n).views p.1 = some p.2 :=
      alGet_eq_some_of_mem_nodup hp hnodup'
    rcases hidePrev_mem hp with hmem | ⟨cur, prev, hcv, hc, hg, hpe⟩
    · -- p is an original entry, so it was visible and current before the call
      have hcv' := hvisOK p hmem hb
      have hgp : alGet s.views p.1 = some p.2 :=
        alGet_eq_some_of_mem_nodup hmem hnodup
      by_cases hcn : p.1 = n
      · -- the visible entry is the target itself, contradicting hvis
        rw [hcn, hget] at hgp
        injection hgp with hgp
        rw [hgp, hb] at hvis
        exact Bool.noConfusion hvis
      · -- the visible previous view gets replaced by its hidden copy
        have hcur : alGet (hidePrev s n).views p.1 = some (hideV p.2) :=
          hidePrev_get_cur hcv' hcn hgp
        rw [hgall] at hcur
        injection hcur with hcur
        have hfalse : p.2.isVisible = false := by rw [hcur]; rfl
        rw [hb] at hfalse
        exact Bool.noConfusion hfalse
    · -- p is the hidden copy itself, which is not visible
      rw [hpe] at hb
      simp [hideV] at hb

theorem vmInv_showLoadingScreen {t : VMState} (h : vmInv t) :
    vmInv (showLoadingScreen t) := h

theorem showByName_preserves_vmInv {s : VMState} (n : String) (hinv : vmInv s) :
    vmInv (showByName s n) := by
  obtain ⟨hnodup, hvisOK⟩ := hinv
  cases hg : alGet s.views n with
  | none => rw [showByName_miss hg]; exact ⟨hnodup, hvisOK⟩
  | some v =>
    cases hb : v.isVisible with
    | true => rw [showByName_visible hg hb]; exact ⟨hnodup, hvisOK⟩
    | false =>
      rw [showByName_main hg hb]
      have hhidenodup : ((hidePrev s n).views.map Prod.fst).Nodup := by
        rw [hidePrev_keys]; exact hnodup
      have hnovis := hidePrev_no_visible ⟨hnodup, hvisOK⟩ hg hb
      by_cases he : v.errored = true
      · rw [if_pos he]
        refine ⟨hhidenodup, ?_⟩
        intro p hp hviz
        exfalso
        have := hnovis p hp
        rw [hviz] at this
        exact Bool.noConfusion this
      · rw [if_neg he]
        have hhas : alHas (hidePrev s n).views n = true := by
          unfold alHas
          rw [hidePrev_get_name, hg]
          rfl
        have hinner : vmInv
            { {hidePrev s n with currentView := some n} with
              views := alSet {hidePrev s n with currentView := some n}.views n (showV v) } := by
          constructor
          · show ((alSet (hidePrev s n).views n (showV v)).map Prod.fst).Nodup
            rw [alSet_keys_of_has _ hhas]
            exact hhidenodup
          · intro p hp hviz
            rcases mem_alSet_of_mem hp with h | h
            · exfalso
              have := hnovis p h
              rw [hviz] at this
              exact Bool.noConfusion this
            · show some n = some p.1
              rw [h]
        by_cases hl : needsLoadingScreen v = true
        · rw [if_pos hl]
          exact vmInv_showLoadingScreen hinner
        · rw [if_neg hl]
          exact hinner

theorem length_le_one_of_nodup_const {l : List (α × β)} {c : α}
    (hnodup : (l.map Prod.fst).Nodup) (hall : ∀ p ∈ l, p.1 = c) :
    l.length ≤ 1 := by
  cases l with
  | nil => simp
  | cons a rest =>
    cases rest with
    | nil => simp
    | cons b rest' =>
      exfalso
      simp only [List.map_cons, List.nodup_cons] at hnodup
      have ha := hall a (by simp)
      have hb := hall b (by simp)
      exact hnodup.1 (by simp [ha, hb])

theorem countVisible_le_one {s : VMState} (hinv : vmInv s) :
    countVisible s ≤ 1 := by
  obtain ⟨hnodup, hvisOK⟩ := hinv
  unfold countVisible
  cases hcv : s.currentView with
  | none =>
    have hnil : s.views.filter (fun p => p.2.isVisible) = [] := by
      rw [List.filter_eq_nil_iff]
      intro p hp hviz
      have := hvisOK p hp (by simpa using hviz)
      rw [hcv] at this
      exact Option.noConfusion this
    rw [hnil]
    simp
  | some c =>
    have hsub : List.Sublist
        ((s.views.filter (fun p => p.2.isVisible)).map Prod.fst)
        (s.views.map Prod.fst) :=
      (List.filter_sublist _).map Prod.fst
    refine length_le_one_of_nodup_const (c := c) (hnodup.sublist hsub) ?_
    intro p hp
    have hmem := List.mem_filter.mp hp
    have := hvisOK p hmem.1 (by simpa using hmem.2)
    rw [hcv] at this
    injection this with h
    exact h.symm

/-- C2: at most one active view — starting from any state satisfying the
manager invariant, after every sequence of `showByName` calls at most one
view is visible; a call whose target is already visible is a no-op; and when
the target differs from the current view, the previously active view is
hidden while the target (if not errored) is shown and becomes current. -/
theorem C2_at_most_one_active :
    (∀ (s : VMState), vmInv s → ∀ calls : List String,
      vmInv (calls.foldl showByName s) ∧
        countVisible (calls.foldl showByName s) ≤ 1) ∧
    (∀ (s : VMState) (n : String) (v : MMView),
      alGet s.views n = some v → v.isVisible = true → showByName s n = s) ∧
    (∀ (s : VMState) (n c : String) (v p : MMView), vmInv s →
      alGet s.views n = some v → v.isVisible = false →
      s.currentView = some c → c ≠ n → alGet s.views c = some p →
      alGet (showByName s n).views c = some (hideV p) ∧
        (v.errored = false →
          alGet (showByName s n).views n = some (showV v) ∧
            (showByName s n).currentView = some n)) := by
  refine ⟨?_, ?_, ?_⟩
  · intro s hinv calls
    have hrun : ∀ (l : List String) (t : VMState), vmInv t →
        vmInv (l.foldl showByName t) := by
      intro l
      induction l with
      | nil => intro t ht; exact ht
      | cons n rest ih => intro t ht; exact ih _ (showByName_preserves_vmInv n ht)
    have h := hrun calls s hinv
    exact ⟨h, countVisible_le_one h⟩
  · intro s n v hget hvis
    exact showByName_visible hget hvis
  · intro s n c v p hinv hget hvis hcv hcn hgc
    rw [showByName_main hget hvis]
    by_cases he : v.errored = true
    · rw [if_pos he]
      refine ⟨?_, ?_⟩
      · show alGet (hidePrev s n).views c = some (hideV p)
        exact hidePrev_get_cur hcv hcn hgc
      · intro hfe
        rw [hfe] at he
        exact Bool.noConfusion he
    · rw [if_neg he]
      have hres : ∀ t : VMState,
          t.views = alSet (hidePrev s n).views n (showV v) →
          t.currentView = some n →
          alGet t.views c = some (hideV p) ∧
            (v.errored = false →
              alGet t.views n = some (showV v) ∧ t.currentView = some n) := by
        intro t htv htc
        refine ⟨?_, fun _ => ⟨?_, htc⟩⟩
        · rw [htv, alGet_alSet_ne _ _ _ _ (Ne.symm hcn)]
          exact hidePrev_get_cur hcv hcn hgc
        · rw [htv]
          exact alGet_alSet_self _ _ _
      by_cases hl : needsLoadingScreen v = true
      · rw [if_pos hl]
        exact hres _ rfl rfl
      · rw [if_neg hl]
        exact hres _ rfl rfl

/-- Witness for C2 at a concrete state and call sequence. -/
theorem C2_at_most_one_active_witness :
    vmInv stateTwoViews ∧
      countVisible
        (["A:focalboard", "A:messaging"].foldl showByName stateTwoViews) ≤ 1 := by
  have h : vmInv stateTwoViews := by
    constructor
    · decide
    · decide
  exact ⟨h, (C2_at_most_one_active.1 stateTwoViews h ["A:focalboard", "A:messaging"]).2⟩

/-- C5 counterexample: `showByName` on the errored hidden view
`A:focalboard` does change visibility — it hides the previously visible view
`A:messaging` before noticing the target is errored, so "leaves the
visibility of every view unchanged" is false. -/
theorem C5_errored_never_shown_counterexample :
    (alGet stateWithErrored.views "A:messaging").map (fun v => v.isVisible) =
        some true ∧
      (alGet stateWithErrored.views "A:focalboard").map
        (fun v => (v.errored, v.isVisible)) = some (true, false) ∧
      (alGet (showByName stateWithErrored "A:focalboard").views "A:messaging").map
        (fun v => v.isVisible) = some false := by
  exact ⟨rfl, rfl, rfl⟩

/-- C5 as amended: `showByName` on an errored view never shows it — the
target's map entry is completely unchanged (in particular it stays
invisible) — but when the target was hidden, `currentView` is still
repointed at it and the previously active different view is hidden first. -/
theorem C5_errored_never_shown_amended (s : VMState) (n : String) (v : MMView)
    (hget : alGet s.views n = some v) (herr : v.errored = true) :
    alGet (showByName s n).views n = some v ∧
      (v.isVisible = false →
        (showByName s n).currentView = some n ∧
          ∀ c p, s.currentView = some c → c ≠ n → alGet s.views c = some p →
            alGet (showByName s n).views c = some (hideV p)) := by
  cases hb : v.isVisible with
  | true =>
    rw [showByName_visible hget hb]
    refine ⟨hget, ?_⟩
    intro h
    exact Bool.noConfusion h
  | false =>
    rw [showByName_main hget hb, if_pos herr]
    refine ⟨?_, ?_⟩
    · show alGet (hidePrev s n).views n = some v
      rw [hidePrev_get_name]
      exact hget
    · intro _
      refine ⟨rfl, ?_⟩
      intro c p hcv hcn hgc
      show alGet (hidePrev s n).views c = some (hideV p)
      exact hidePrev_get_cur hcv hcn hgc

/-- Witness for the amended C5 at a concrete errored view. -/
theorem C5_errored_never_shown_witness :
    (alGet stateWithErrored.views "A:focalboard" = some viewFocalboardErrored ∧
        viewFocalboardErrored.errored = true) ∧
      alGet (showByName stateWithErrored "A:focalboard").views "A:focalboard" =
        some viewFocalboardErrored :=
  ⟨⟨rfl, rfl⟩,
    (C5_errored_never_shown_amended stateWithErrored "A:focalboard"
        viewFocalboardErrored rfl rfl).1⟩

/-- C8: a deep link resolving to no configured server surfaces an error box
and mutates nothing — the resulting state differs only in the error-surface
ghost counter. -/
theorem C8_no_match_no_mutation (resolve : String → Option TabViewRef)
    (s : VMState) (url : String) (hurl : url ≠ "")
    (hres : resolve url = none) :
    handleDeepLink resolve s url = {s with errorBoxes := s.errorBoxes + 1} ∧
      (handleDeepLink resolve s url).views = s.views ∧
      (handleDeepLink resolve s url).closedViews = s.closedViews ∧
      (handleDeepLink resolve s url).currentView = s.currentView ∧
      (handleDeepLink resolve s url).loadCalls = s.loadCalls ∧
      (handleDeepLink resolve s url).loadingScreenState = s.loadingScreenState ∧
      (handleDeepLink resolve s url).errorBoxes = s.errorBoxes + 1 := by
  have h : handleDeepLink resolve s url = {s with errorBoxes := s.errorBoxes + 1} := by
    unfold handleDeepLink
    rw [if_neg hurl, hres]
  rw [h]
  exact ⟨rfl, rfl, rfl, rfl, rfl, rfl, rfl⟩

/-- Witness for C8 at a concrete unmatched deep link. -/
theorem C8_no_match_no_mutation_witness :
    (("mattermost://nope.example.com/path" : String) ≠ "" ∧
        resolveNone "mattermost://nope.example.com/path" = none) ∧
      handleDeepLink resolveNone vmInit "mattermost://nope.example.com/path" =
        {vmInit with errorBoxes := vmInit.errorBoxes + 1} := by
  have h₁ : ("mattermost://nope.example.com/path" : String) ≠ "" := by decide
  exact ⟨⟨h₁, rfl⟩,
    (C8_no_match_no_mutation resolveNone vmInit
        "mattermost://nope.example.com/path" h₁ rfl).1⟩

/-! ## Frame and visibility-stripping lemmas for the activation steps -/

theorem stripVis_hideV (v : MMView) : stripVis (hideV v) = stripVis v := rfl

theorem stripVis_showV (v : MMView) : stripVis (showV v) = stripVis v := by
  unfold showV
  by_cases h : v.errored = true
  · rw [if_pos h]
  · rw [if_neg h]
    rfl

theorem stripVis_fields {v w : MMView} (h : stripVis v = stripVis w) :
    v.name = w.name ∧ v.tuple = w.tuple ∧ v.surfaceId = w.surfaceId ∧
      v.dlSuccess = w.dlSuccess ∧ v.dlFailed = w.dlFailed ∧
      v.errored = w.errored ∧ v.initialized = w.initialized ∧
      v.ready = w.ready ∧ v.firstLoadDone = w.firstLoadDone ∧
      v.loading = w.loading ∧ v.pendingUrl = w.pendingUrl ∧
      v.serverVersion = w.serverVersion ∧ v.srvName = w.srvName ∧
      v.srvUrl = w.srvUrl ∧ v.occListener = w.occListener ∧
      v.onceActivate = w.onceActivate := by
  unfold stripVis at h
  injection h with h₁ h₂ h₃ h₄ h₅ h₆ h₇ h₈ h₉ h₁₀ h₁₁ h₁₂ h₁₃ h₁₄ h₁₅ h₁₆ h₁₇
  exact ⟨h₁, h₂, h₁₃, h₁₅, h₁₆, h₇, h₈, h₉, h₁₀, h₁₁, h₁₂, h₅, h₃, h₄, h₁₇, h₁₄⟩

theorem alGet_alSet_stripVis {m : List (String × MMView)} {k : String}
    {v w : MMView} (hget : alGet m k = some v)
    (hsv : stripVis w = stripVis v) (k' : String) :
    (alGet (alSet m k w) k').map stripVis = (alGet m k').map stripVis := by
  by_cases hk : k = k'
  · subst hk
    rw [alGet_alSet_self, hget]
    simp [hsv]
  · rw [alGet_alSet_ne _ _ _ _ hk]

theorem hidePrev_eq (s : VMState) (n : String) :
    ∃ w, hidePrev s n = {s with views := w} := by
  cases hcv : s.currentView with
  | none =>
    refine ⟨s.views, ?_⟩
    simp only [hidePrev, hcv]
    rw [← hcv]
  | some cur =>
    by_cases hc : cur ≠ n
    · cases hg : alGet s.views cur with
      | none =>
        refine ⟨s.views, ?_⟩
        simp only [hidePrev, hcv, if_pos hc, hg]
        rw [← hcv]
      | some prev =>
        refine ⟨alSet s.views cur (hideV prev), ?_⟩
        simp only [hidePrev, hcv, if_pos hc, hg]
    · refine ⟨s.views, ?_⟩
      simp only [hidePrev, hcv, if_neg hc]
      rw [← hcv]

theorem hidePrev_get_stripVis (s : VMState) (n k : String) :
    (alGet (hidePrev s n).views k).map stripVis =
      (alGet s.views k).map stripVis := by
  cases hcv : s.currentView with
  | none => simp only [hidePrev, hcv]
  | some cur =>
    simp only [hidePrev, hcv]
    by_cases hc : cur ≠ n
    · rw [if_pos hc]
      cases hg : alGet s.views cur with
      | none => rfl
      | some prev =>
        simp only []
        exact alGet_alSet_stripVis hg (stripVis_hideV prev) k
    · rw [if_neg hc]

theorem showByName_eq (s : VMState) (n : String) :
    ∃ w c l, showByName s n =
      {s with views := w, currentView := c, loadingScreenState := l} := by
  cases hg : alGet s.views n with
  | none =>
    exact ⟨s.views, s.currentView, s.loadingScreenState, by rw [showByName_miss hg]⟩
  | some v =>
    cases hb : v.isVisible with
    | true =>
      exact ⟨s.views, s.currentView, s.loadingScreenState,
        by rw [showByName_visible hg hb]⟩
    | false =>
      obtain ⟨w, hw⟩ := hidePrev_eq s n
      rw [showByName_main hg hb]
      by_cases he : v.errored = true
      · rw [if_pos he, hw]
        exact ⟨w, some n, s.loadingScreenState, rfl⟩
      · rw [if_neg he]
        by_cases hl : needsLoadingScreen v = true
        · rw [if_pos hl, hw]
          exact ⟨alSet w n (showV v), some n, LSState.visible, rfl⟩
        · rw [if_neg hl, hw]
          exact ⟨alSet w n (showV v), some n, s.loadingScreenState, rfl⟩

theorem showByName_ghost (s : VMState) (n : String) :
    ghostState (showByName s n) = ghostState s := by
  obtain ⟨w, c, l, h⟩ := showByName_eq s n
  rw [h]
  rfl

theorem showByName_get_stripVis (s : VMState) (n k : String) :
    (alGet (showByName s n).views k).map stripVis =
      (alGet s.views k).map stripVis := by
  cases hg : alGet s.views n with
  | none => rw [showByName_miss hg]
  | some v =>
    cases hb : v.isVisible with
    | true => rw [showByName_visible hg hb]
    | false =>
      rw [showByName_main hg hb]
      have hhget : alGet (hidePrev s n).views n = some v := by
        rw [hidePrev_get_name]
        exact hg
      by_cases he : v.errored = true
      · rw [if_pos he]
        exact hidePrev_get_stripVis s n k
      · rw [if_neg he]
        have hstep :
            (alGet (alSet (hidePrev s n).views n (showV v)) k).map stripVis =
              (alGet s.views k).map stripVis := by
          rw [alGet_alSet_stripVis hhget (stripVis_showV v) k]
          exact hidePrev_get_stripVis s n k
        by_cases hl : needsLoadingScreen v = true
        · rw [if_pos hl]
          exact hstep
        · rw [if_neg hl]
          exact hstep

theorem showByName_keys (s : VMState) (n : String) :
    (showByName s n).views.map Prod.fst = s.views.map Prod.fst := by
  cases hg : alGet s.views n with
  | none => rw [showByName_miss hg]
  | some v =>
    cases hb : v.isVisible with
    | true => rw [showByName_visible hg hb]
    | false =>
      rw [showByName_main hg hb]
      have hhas : alHas (hidePrev s n).views n = true := by
        unfold alHas
        rw [hidePrev_get_name, hg]
        rfl
      by_cases he : v.errored = true
      · rw [if_pos he]
        exact hidePrev_keys s n
      · rw [if_neg he]
        have hstep : (alSet (hidePrev s n).views n (showV v)).map Prod.fst =
            s.views.map Prod.fst := by
          rw [alSet_keys_of_has _ hhas]
          exact hidePrev_keys s n
        by_cases hl : needsLoadingScreen v = true
        · rw [if_pos hl]
          exact hstep
        · rw [if_neg hl]
          exact hstep

theorem activateView_eq (s : VMState) (n : String) :
    ∃ w c l, activateView s n =
      {s with views := w, currentView := c, loadingScreenState := l} := by
  unfold activateView
  by_cases h : s.currentView = some n
  · rw [if_pos h]
    exact showByName_eq s n
  · rw [if_neg h]
    exact ⟨s.views, s.currentView, s.loadingScreenState, rfl⟩

theorem activateView_ghost (s : VMState) (n : String) :
    ghostState (activateView s n) = ghostState s := by
  obtain ⟨w, c, l, h⟩ := activateView_eq s n
  rw [h]
  rfl

theorem activateView_get_stripVis (s : VMState) (n k : String) :
    (alGet (activateView s n).views k).map stripVis =
      (alGet s.views k).map stripVis := by
  unfold activateView
  by_cases h : s.currentView = some n
  · rw [if_pos h]
    exact showByName_get_stripVis s n k
  · rw [if_neg h]

theorem occReshow_ghost (s : VMState) (nm : String) :
    ghostState (occReshow s nm) = ghostState s := by
  unfold occReshow
  cases hg : alGet s.views nm with
  | none => rfl
  | some v₂ =>
    simp only []
    rw [showByName_ghost]
    rfl

theorem occReshow_get_stripVis (s : VMState) (nm k : String) :
    (alGet (occReshow s nm).views k).map stripVis =
      (alGet s.views k).map stripVis := by
  unfold occReshow
  cases hg : alGet s.views nm with
  | none => rfl
  | some v₂ =>
    simp only []
    rw [showByName_get_stripVis]
    show (alGet (alSet s.views nm {v₂ with isVisible := false}) k).map stripVis =
      (alGet s.views k).map stripVis
    exact alGet_alSet_stripVis hg
      (show stripVis {v₂ with isVisible := false} = stripVis v₂ from rfl) k

theorem deeplinkSuccess_ghost (s : VMState) (nm : String) :
    ghostState (deeplinkSuccess s nm) =
      ghostState {s with dlSuccessCalls := s.dlSuccessCalls ++ [nm]} := by
  unfold deeplinkSuccess
  cases hg : alGet s.views nm with
  | none => simp only [hg]
  | some v₀ =>
    simp only [hg]
    cases hg₁ : alGet
        (showByName {s with dlSuccessCalls := s.dlSuccessCalls ++ [nm]} nm).views
        nm with
    | none =>
      simp only [hg₁]
      rw [showByName_ghost]
    | some v₁ =>
      simp only [hg₁]
      show ghostState {(showByName {s with dlSuccessCalls := s.dlSuccessCalls ++ [nm]} nm)
        with views := _} = _
      rw [show ∀ t : VMState, ∀ w, ghostState {t with views := w} = ghostState t from
        fun t w => rfl]
      rw [showByName_ghost]

theorem deeplinkSuccess_flags {s : VMState} {nm : String} {v₀ : MMView}
    (hget : alGet s.views nm = some v₀) :
    (alGet (deeplinkSuccess s nm).views nm).map
        (fun x => (x.dlSuccess, x.dlFailed)) = some (v₀.dlSuccess, false) := by
  unfold deeplinkSuccess
  simp only [hget]
  have hstrip : (alGet
      (showByName {s with dlSuccessCalls := s.dlSuccessCalls ++ [nm]} nm).views
      nm).map stripVis = some (stripVis v₀) := by
    rw [showByName_get_stripVis]
    show (alGet s.views nm).map stripVis = _
    rw [hget]
    rfl
  obtain ⟨v₁, hv₁, hsv⟩ := Option.map_eq_some'.mp hstrip
  simp only [hv₁]
  show (alGet (alSet
      (showByName {s with dlSuccessCalls := s.dlSuccessCalls ++ [nm]} nm).views
      nm {v₁ with dlFailed := false}) nm).map (fun x => (x.dlSuccess, x.dlFailed)) = _
  rw [alGet_alSet_self]
  have hflag : v₁.dlSuccess = v₀.dlSuccess := (stripVis_fields hsv).2.2.2.1
  simp [hflag]

theorem deeplinkFailed_ghost (s : VMState) (nm : String) :
    ghostState (deeplinkFailed s nm) =
      ghostState {s with dlFailedCalls := s.dlFailedCalls ++ [nm]} := by
  unfold deeplinkFailed
  cases hg : alGet s.views nm with
  | none => simp only [hg]
  | some v₀ => simp only [hg]; rfl

theorem deeplinkFailed_entry {s : VMState} {nm : String} {v₀ : MMView}
    (hget : alGet s.views nm = some v₀) :
    alGet (deeplinkFailed s nm).views nm = some {v₀ with dlSuccess := false} := by
  unfold deeplinkFailed
  simp only [hget]
  exact alGet_alSet_self _ _ _

theorem failLoading_eq (s : VMState) (nm : String) :
    ∃ w l, failLoading s nm = {s with views := w, loadingScreenState := l} := by
  unfold failLoading fadeLoadingScreen
  by_cases hls : s.loadingScreenState = LSState.visible
  · rw [if_pos hls]
    by_cases hcv :
        ({s with loadingScreenState := LSState.fading} : VMState).currentView = some nm
    · rw [if_pos hcv]
      cases hg : alGet ({s with loadingScreenState := LSState.fading} : VMState).views nm with
      | none =>
        exact ⟨s.views, LSState.fading, rfl⟩
      | some v =>
        exact ⟨alSet s.views nm (hideV v), LSState.fading, rfl⟩
    · rw [if_neg hcv]
      exact ⟨s.views, LSState.fading, rfl⟩
  · rw [if_neg hls]
    by_cases hcv : s.currentView = some nm
    · rw [if_pos hcv]
      cases hg : alGet s.views nm with
      | none =>
        refine ⟨s.views, s.loadingScreenState, ?_⟩
        rfl
      | some v =>
        exact ⟨alSet s.views nm (hideV v), s.loadingScreenState, rfl⟩
    · rw [if_neg hcv]
      exact ⟨s.views, s.loadingScreenState, rfl⟩

theorem failLoading_ghost (s : VMState) (nm : String) :
    ghostState (failLoading s nm) = ghostState s := by
  obtain ⟨w, l, h⟩ := failLoading_eq s nm
  rw [h]
  rfl

theorem failLoading_get_stripVis (s : VMState) (nm k : String) :
    (alGet (failLoading s nm).views k).map stripVis =
      (alGet s.views k).map stripVis := by
  unfold failLoading
  have hfl : (fadeLoadingScreen s).views = s.views := by
    unfold fadeLoadingScreen
    by_cases hls : s.loadingScreenState = LSState.visible
    · rw [if_pos hls]
    · rw [if_neg hls]
  by_cases hcv : (fadeLoadingScreen s).currentView = some nm
  · rw [if_pos hcv]
    cases hg : alGet (fadeLoadingScreen s).views nm with
    | none => rw [hfl]
    | some v =>
      simp only []
      show (alGet (alSet (fadeLoadingScreen s).views nm (hideV v)) k).map stripVis = _
      rw [hfl] at hg ⊢
      exact alGet_alSet_stripVis hg (stripVis_hideV v) k
  · rw [if_neg hcv]
    rw [hfl]

theorem ghost_loadCalls {a b : VMState} (h : ghostState a = ghostState b) :
    a.loadCalls = b.loadCalls :=
  congrArg (fun g => g.2.2.2.2.2.1) h

theorem ghost_historyPushes {a b : VMState} (h : ghostState a = ghostState b) :
    a.historyPushes = b.historyPushes :=
  congrArg (fun g => g.2.2.2.2.2.2.1) h

theorem ghost_dlSuccessCalls {a b : VMState} (h : ghostState a = ghostState b) :
    a.dlSuccessCalls = b.dlSuccessCalls :=
  congrArg (fun g => g.2.2.2.2.2.2.2.1) h

theorem ghost_dlFailedCalls {a b : VMState} (h : ghostState a = ghostState b) :
    a.dlFailedCalls = b.dlFailedCalls :=
  congrArg (fun g => g.2.2.2.2.2.2.2.2.1) h

theorem ghost_closedViews {a b : VMState} (h : ghostState a = ghostState b) :
    a.closedViews = b.closedViews :=
  congrArg (fun g => g.2.2.1) h

theorem ghost_nextSurface {a b : VMState} (h : ghostState a = ghostState b) :
    a.nextSurface = b.nextSurface :=
  congrArg (fun g => g.2.2.2.1) h

theorem ghost_destroyedSurfaces {a b : VMState} (h : ghostState a = ghostState b) :
    a.destroyedSurfaces = b.destroyedSurfaces :=
  congrArg (fun g => g.2.2.2.2.1) h

theorem ghost_configServers {a b : VMState} (h : ghostState a = ghostState b) :
    a.configServers = b.configServers :=
  congrArg (fun g => g.1) h

/-! ## Reconciliation lemmas -/

theorem insertTab_perm (t : Tab) (l : List Tab) :
    (insertTab t l).Perm (t :: l) := by
  induction l with
  | nil => exact List.Perm.refl _
  | cons x xs ih =>
    unfold insertTab
    by_cases h : t.order ≤ x.order
    · rw [if_pos h]
    · rw [if_neg h]
      exact List.Perm.trans (List.Perm.cons x ih) (List.Perm.swap t x xs)

theorem sortTabs_perm (l : List Tab) : (sortTabs l).Perm l := by
  induction l with
  | nil => exact List.Perm.refl _
  | cons t ts ih =>
    show (insertTab t (ts.foldr insertTab [])).Perm (t :: ts)
    exact List.Perm.trans (insertTab_perm t _) (List.Perm.cons t ih)

theorem mem_sortTabs {t : Tab} {l : List Tab} : t ∈ sortTabs l ↔ t ∈ l :=
  (sortTabs_perm l).mem_iff

theorem mem_configPairs {config : List TeamWithTabs} {p : TabTuple × Extra} :
    p ∈ configPairs config ↔
      ∃ srv ∈ config, ∃ t ∈ srv.tabs,
        p = (keyOf srv.url t.name, extraData srv t) := by
  unfold configPairs
  constructor
  · intro h
    rcases List.mem_flatMap.mp h with ⟨srv, hsrv, hp⟩
    rcases List.mem_map.mp hp with ⟨t, ht, hte⟩
    exact ⟨srv, hsrv, t, mem_sortTabs.mp ht, hte.symm⟩
  · rintro ⟨srv, hsrv, t, ht, hp⟩
    exact List.mem_flatMap.mpr
      ⟨srv, hsrv, List.mem_map.mpr ⟨t, mem_sortTabs.mpr ht, hp.symm⟩⟩

theorem openPairs_eq_filter (config : List TeamWithTabs) :
    openPairs config = (configPairs config).filter (fun p => p.2.tabOpen) := by
  unfold openPairs
  rw [List.partition_eq_filter_filter]

theorem closedPairs_eq_filter (config : List TeamWithTabs) :
    closedPairs config =
      (configPairs config).filter (fun p => !p.2.tabOpen) := by
  unfold closedPairs
  rw [List.partition_eq_filter_filter]
  rfl

theorem mem_openPairs {config : List TeamWithTabs} {p : TabTuple × Extra} :
    p ∈ openPairs config ↔ p ∈ configPairs config ∧ p.2.tabOpen = true := by
  rw [openPairs_eq_filter, List.mem_filter]

theorem mem_closedPairs {config : List TeamWithTabs} {p : TabTuple × Extra} :
    p ∈ closedPairs config ↔ p ∈ configPairs config ∧ p.2.tabOpen = false := by
  rw [closedPairs_eq_filter, List.mem_filter]
  constructor
  · rintro ⟨h₁, h₂⟩
    refine ⟨h₁, ?_⟩
    cases hb : p.2.tabOpen
    · rfl
    · rw [hb] at h₂; exact Bool.noConfusion h₂
  · rintro ⟨h₁, h₂⟩
    refine ⟨h₁, ?_⟩
    rw [h₂]
    rfl

theorem keyOpenIn_iff {config : List TeamWithTabs} {K : TabTuple} :
    keyOpenIn config K = true ↔ K ∈ (openPairs config).map Prod.fst := by
  unfold keyOpenIn
  rw [List.any_eq_true]
  constructor
  · rintro ⟨srv, hsrv, hsome⟩
    rcases List.any_eq_true.mp hsome with ⟨t, ht, hcond⟩
    simp only [Bool.and_eq_true] at hcond
    obtain ⟨hopen, hkey⟩ := hcond
    refine List.mem_map.mpr ⟨(keyOf srv.url t.name, extraData srv t), ?_, ?_⟩
    · exact mem_openPairs.mpr
        ⟨mem_configPairs.mpr ⟨srv, hsrv, t, ht, rfl⟩, hopen⟩
    · exact of_decide_eq_true hkey
  · intro h
    rcases List.mem_map.mp h with ⟨p, hp, hpk⟩
    obtain ⟨hpc, hpo⟩ := mem_openPairs.mp hp
    rcases mem_configPairs.mp hpc with ⟨srv, hsrv, t, ht, hpe⟩
    refine ⟨srv, hsrv, List.any_eq_true.mpr ⟨t, ht, ?_⟩⟩
    rw [hpe] at hpo hpk
    simp only [Bool.and_eq_true]
    exact ⟨hpo, decide_eq_true hpk⟩

theorem mem_currentTupMap {s : VMState} {k : TabTuple} {v : MMView}
    (h : (k, v) ∈ currentTupMap s) : v ∈ alValues s.views ∧ k = v.tuple := by
  unfold currentTupMap at h
  have h' := mem_of_mem_mapFrom h
  rcases List.mem_map.mp h' with ⟨x, hx, hxe⟩
  injection hxe with h₁ h₂
  constructor
  · rw [← h₂]; exact hx
  · rw [← h₁, ← h₂]

theorem alHas_currentTupMap {s : VMState} {K : TabTuple} :
    alHas (currentTupMap s) K = true ↔
      ∃ v ∈ alValues s.views, v.tuple = K := by
  unfold currentTupMap
  rw [alHas_mapFrom_iff, List.map_map]
  constructor
  · intro h
    rcases List.mem_map.mp h with ⟨v, hv, hvk⟩
    exact ⟨v, hv, hvk⟩
  · rintro ⟨v, hv, hvk⟩
    exact List.mem_map.mpr ⟨v, hv, hvk⟩

theorem buildOpen_cons_recycle {current : List (TabTuple × MMView)}
    {k : TabTuple} {recycle : MMView} (e : Extra) (s : VMState)
    (rest : List (TabTuple × Extra)) (hc : alGet current k = some recycle) :
    buildOpen current s ((k, e) :: rest) =
      ((buildOpen current s rest).1,
        (k, recycleUpd recycle e) :: (buildOpen current s rest).2) := by
  simp only [buildOpen, hc]

theorem buildOpen_cons_fresh {current : List (TabTuple × MMView)}
    {k : TabTuple} (e : Extra) (s : VMState)
    (rest : List (TabTuple × Extra)) (hc : alGet current k = none) :
    buildOpen current s ((k, e) :: rest) =
      ((buildOpen current (makeView s e.srv e.tab (some k.url)).1 rest).1,
        (k, freshView e.srv e.tab (some k.url) s.nextSurface) ::
          (buildOpen current (makeView s e.srv e.tab (some k.url)).1 rest).2) := by
  simp only [buildOpen, hc]
  rfl

theorem buildOpen_fst (current : List (TabTuple × MMView)) :
    ∀ (l : List (TabTuple × Extra)) (s : VMState),
      ∃ cv ns lc, (buildOpen current s l).1 =
        {s with closedViews := cv, nextSurface := ns, loadCalls := lc} := by
  intro l
  induction l with
  | nil =>
    intro s
    exact ⟨s.closedViews, s.nextSurface, s.loadCalls, rfl⟩
  | cons p rest ih =>
    intro s
    obtain ⟨k, e⟩ := p
    cases hc : alGet current k with
    | some recycle =>
      rw [buildOpen_cons_recycle e s rest hc]
      exact ih s
    | none =>
      rw [buildOpen_cons_fresh e s rest hc]
      obtain ⟨cv, ns, lc, h⟩ := ih (makeView s e.srv e.tab (some k.url)).1
      exact ⟨cv, ns, lc, h⟩

theorem buildOpen_closed (current : List (TabTuple × MMView)) :
    ∀ (l : List (TabTuple × Extra)) (s : VMState) {n : String},
      alHas (buildOpen current s l).1.closedViews n = true →
        alHas s.closedViews n = true ∧
          ∀ k e, (k, e) ∈ l → alGet current k = none →
            getTabViewName e.srv.name e.tab.name ≠ n := by
  intro l
  induction l with
  | nil =>
    intro s n h
    refine ⟨h, ?_⟩
    intro k e hk
    simp at hk
  | cons p rest ih =>
    intro s n h
    obtain ⟨k, e⟩ := p
    cases hc : alGet current k with
    | some recycle =>
      rw [buildOpen_cons_recycle e s rest hc] at h
      obtain ⟨h₁, h₂⟩ := ih s h
      refine ⟨h₁, ?_⟩
      intro k' e' hk' hc'
      rcases List.mem_cons.mp hk' with heq | hmem
      · injection heq with e₁ e₂
        rw [e₁] at hc'
        rw [hc'] at hc
        exact Option.noConfusion hc
      · exact h₂ k' e' hmem hc'
    | none =>
      rw [buildOpen_cons_fresh e s rest hc] at h
      obtain ⟨h₁, h₂⟩ := ih (makeView s e.srv e.tab (some k.url)).1 h
      have hsplit : n ≠ getTabViewName e.srv.name e.tab.name ∧
          alHas s.closedViews n = true := by
        have hdel : alHas
            (alDel s.closedViews (getTabViewName e.srv.name e.tab.name)) n =
            true := h₁
        unfold alHas at hdel ⊢
        rw [alGet_alDel] at hdel
        by_cases hn : n = getTabViewName e.srv.name e.tab.name
        · rw [if_pos hn] at hdel
          exact absurd hdel (by simp)
        · rw [if_neg hn] at hdel
          exact ⟨hn, hdel⟩
      refine ⟨hsplit.2, ?_⟩
      intro k' e' hk' hc'
      rcases List.mem_cons.mp hk' with heq | hmem
      · injection heq with e₁ e₂
        rw [e₂]
        exact fun hh => hsplit.1 hh.symm
      · exact h₂ k' e' hmem hc'

theorem buildOpen_snd_keys (current : List (TabTuple × MMView)) :
    ∀ (l : List (TabTuple × Extra)) (s : VMState),
      ((buildOpen current s l).2).map Prod.fst = l.map Prod.fst := by
  intro l
  induction l with
  | nil => intro s; rfl
  | cons p rest ih =>
    intro s
    obtain ⟨k, e⟩ := p
    cases hc : alGet current k with
    | some recycle =>
      rw [buildOpen_cons_recycle e s rest hc]
      simp only [List.map_cons]
      rw [ih s]
    | none =>
      rw [buildOpen_cons_fresh e s rest hc]
      simp only [List.map_cons]
      rw [ih (makeView s e.srv e.tab (some k.url)).1]

theorem buildOpen_snd_mem (current : List (TabTuple × MMView)) :
    ∀ (l : List (TabTuple × Extra)) (s : VMState) {k : TabTuple} {w : MMView},
      (k, w) ∈ (buildOpen current s l).2 →
        ∃ e, (k, e) ∈ l ∧
          ((∃ old, alGet current k = some old ∧ w = recycleUpd old e) ∨
            (alGet current k = none ∧
              ∃ sid, w = freshView e.srv e.tab (some k.url) sid)) := by
  intro l
  induction l with
  | nil =>
    intro s k w h
    simp [buildOpen] at h
  | cons p rest ih =>
    intro s k w h
    obtain ⟨k₀, e₀⟩ := p
    cases hc : alGet current k₀ with
    | some recycle =>
      rw [buildOpen_cons_recycle e₀ s rest hc] at h
      rcases List.mem_cons.mp h with heq | hmem
      · injection heq with e₁ e₂
        subst e₁
        exact ⟨e₀, List.mem_cons_self _ _,
          Or.inl ⟨recycle, hc, e₂⟩⟩
      · obtain ⟨e, he, hcase⟩ := ih s hmem
        exact ⟨e, List.mem_cons_of_mem _ he, hcase⟩
    | none =>
      rw [buildOpen_cons_fresh e₀ s rest hc] at h
      rcases List.mem_cons.mp h with heq | hmem
      · injection heq with e₁ e₂
        subst e₁
        exact ⟨e₀, List.mem_cons_self _ _,
          Or.inr ⟨hc, s.nextSurface, e₂⟩⟩
      · obtain ⟨e, he, hcase⟩ := ih (makeView s e₀.srv e₀.tab (some k₀.url)).1 hmem
        exact ⟨e, List.mem_cons_of_mem _ he, hcase⟩

theorem buildOpen_all_recycled (current : List (TabTuple × MMView)) :
    ∀ (l : List (TabTuple × Extra)) (s : VMState),
      (∀ p ∈ l, alHas current p.1 = true) →
        (buildOpen current s l).1 = s := by
  intro l
  induction l with
  | nil => intro s _; rfl
  | cons p rest ih =>
    intro s hall
    obtain ⟨k, e⟩ := p
    cases hc : alGet current k with
    | some recycle =>
      rw [buildOpen_cons_recycle e s rest hc]
      exact ih s (fun q hq => hall q (List.mem_cons_of_mem _ hq))
    | none =>
      exfalso
      have := hall (k, e) (List.mem_cons_self _ _)
      unfold alHas at this
      rw [hc] at this
      exact Bool.noConfusion this

/-! ## Deep-link delivery lemmas -/

theorem deliverLoadSuccess_dl {t : VMState} {nm : String} {w : MMView}
    (hget : alGet t.views nm = some w) (hdl : w.dlSuccess = true) :
    (deliverLoadSuccess t nm).dlSuccessCalls = t.dlSuccessCalls ++ [nm] ∧
      (deliverLoadSuccess t nm).dlFailedCalls = t.dlFailedCalls ∧
      (alGet (deliverLoadSuccess t nm).views nm).map
        (fun x => (x.dlSuccess, x.dlFailed)) = some (false, false) := by
  unfold deliverLoadSuccess
  simp only [hget, hdl, if_true]
  set v₁ : MMView := { w with
    loading := false, ready := true, firstLoadDone := true,
    errored := false, onceActivate := false, dlSuccess := false } with hv₁
  set s₁ : VMState := {t with views := alSet t.views nm v₁} with hs₁
  set s₂ : VMState := if w.onceActivate = true then activateView s₁ nm else s₁ with hs₂
  have hghost₂ : ghostState s₂ = ghostState t := by
    rw [hs₂]
    by_cases ha : w.onceActivate = true
    · rw [if_pos ha, activateView_ghost]
      rfl
    · rw [if_neg ha]
      rfl
  have hstrip₂ : (alGet s₂.views nm).map stripVis = some (stripVis v₁) := by
    rw [hs₂]
    have hbase : (alGet s₁.views nm).map stripVis = some (stripVis v₁) := by
      rw [hs₁]
      show (alGet (alSet t.views nm v₁) nm).map stripVis = _
      rw [alGet_alSet_self]
      rfl
    by_cases ha : w.onceActivate = true
    · rw [if_pos ha, activateView_get_stripVis]
      exact hbase
    · rw [if_neg ha]
      exact hbase
  obtain ⟨u, hu, hsu⟩ := Option.map_eq_some'.mp hstrip₂
  set s₃ : VMState := deeplinkSuccess s₂ nm with hs₃
  have hflags₃ : (alGet s₃.views nm).map (fun x => (x.dlSuccess, x.dlFailed)) =
      some (false, false) := by
    rw [hs₃]
    have h := deeplinkSuccess_flags hu
    have hus : u.dlSuccess = false := by
      have := (stripVis_fields hsu).2.2.2.1
      rw [this]
    rw [hus] at h
    exact h
  have hghost₃ : s₃.dlSuccessCalls = t.dlSuccessCalls ++ [nm] ∧
      s₃.dlFailedCalls = t.dlFailedCalls := by
    have h := deeplinkSuccess_ghost s₂ nm
    constructor
    · have h₁ := ghost_dlSuccessCalls h
      rw [hs₃] at *
      rw [h₁]
      show s₂.dlSuccessCalls ++ [nm] = _
      rw [ghost_dlSuccessCalls hghost₂]
    · have h₁ := ghost_dlFailedCalls h
      rw [hs₃] at *
      rw [h₁]
      show s₂.dlFailedCalls = _
      rw [ghost_dlFailedCalls hghost₂]
  obtain ⟨x, hx, hxf⟩ := Option.map_eq_some'.mp hflags₃
  have hfinal : ∀ s₄ : VMState,
      ghostState s₄ = ghostState s₃ →
      ((alGet s₄.views nm).map stripVis = (alGet s₃.views nm).map stripVis) →
      s₄.dlSuccessCalls = t.dlSuccessCalls ++ [nm] ∧
        s₄.dlFailedCalls = t.dlFailedCalls ∧
        (alGet s₄.views nm).map (fun x => (x.dlSuccess, x.dlFailed)) =
          some (false, false) := by
    intro s₄ hg₄ hstrip₄
    refine ⟨?_, ?_, ?_⟩
    · rw [ghost_dlSuccessCalls hg₄]
      exact hghost₃.1
    · rw [ghost_dlFailedCalls hg₄]
      exact hghost₃.2
    · rw [hx] at hstrip₄
      obtain ⟨y, hy, hsy⟩ := Option.map_eq_some'.mp hstrip₄
      rw [hy]
      have hfields := stripVis_fields hsy
      have h₁ : y.dlSuccess = x.dlSuccess := hfields.2.2.2.1
      have h₂ : y.dlFailed = x.dlFailed := hfields.2.2.2.2.1
      simp only [Option.map_some']
      rw [h₁, h₂]
      injection hxf with hxf₁ hxf₂
      rw [hxf₁, hxf₂]
  by_cases ho : w.occListener = true
  · rw [if_pos ho]
    exact hfinal (occReshow s₃ nm) (occReshow_ghost s₃ nm)
      (occReshow_get_stripVis s₃ nm nm)
  · rw [if_neg ho]
    exact hfinal s₃ rfl rfl

theorem deliverLoadFailed_dl {t : VMState} {nm : String} {w : MMView}
    (hget : alGet t.views nm = some w) (hdl : w.dlFailed = true) :
    (deliverLoadFailed t nm).dlFailedCalls = t.dlFailedCalls ++ [nm] ∧
      (deliverLoadFailed t nm).dlSuccessCalls = t.dlSuccessCalls ∧
      (alGet (deliverLoadFailed t nm).views nm).map
        (fun x => (x.dlSuccess, x.dlFailed)) = some (false, false) := by
  unfold deliverLoadFailed
  simp only [hget, hdl, if_true]
  set v₁ : MMView := {w with loading := false, errored := true, dlFailed := false}
    with hv₁
  set s₁ : VMState := {t with views := alSet t.views nm v₁} with hs₁
  set s₂ : VMState := failLoading s₁ nm with hs₂
  have hghost₂ : ghostState s₂ = ghostState t := by
    rw [hs₂, failLoading_ghost]
    rfl
  have hstrip₂ : (alGet s₂.views nm).map stripVis = some (stripVis v₁) := by
    rw [hs₂, failLoading_get_stripVis, hs₁]
    show (alGet (alSet t.views nm v₁) nm).map stripVis = _
    rw [alGet_alSet_self]
    rfl
  obtain ⟨u, hu, hsu⟩ := Option.map_eq_some'.mp hstrip₂
  refine ⟨?_, ?_, ?_⟩
  · have h := ghost_dlFailedCalls (deeplinkFailed_ghost s₂ nm)
    rw [h]
    show s₂.dlFailedCalls ++ [nm] = _
    rw [ghost_dlFailedCalls hghost₂]
  · have h := ghost_dlSuccessCalls (deeplinkFailed_ghost s₂ nm)
    rw [h]
    show s₂.dlSuccessCalls = _
    rw [ghost_dlSuccessCalls hghost₂]
  · rw [deeplinkFailed_entry hu]
    have hud : u.dlFailed = false := by
      have := (stripVis_fields hsu).2.2.2.2.1
      rw [this]
    simp only [Option.map_some']
    rw [show ({u with dlSuccess := false} : MMView).dlFailed = u.dlFailed from rfl, hud]

theorem handleDeepLink_push {resolve : String → Option TabViewRef}
    {s : VMState} {url : String} {tv : TabViewRef} {view : MMView} {vs : String}
    (hurl : url ≠ "") (hres : resolve url = some tv)
    (hclosed : alHas s.closedViews tv.name = false)
    (hget : alGet s.views tv.name = some view)
    (hinit : view.initialized = true)
    (hsv : view.serverVersion = some vs)
    (hver : verGE vs "6.0.0" = true) :
    handleDeepLink resolve s url =
      deeplinkSuccess
        { s with historyPushes := s.historyPushes ++
            [(view.name, "/" ++ jsReplaceFirst tv.target view.srvUrl "")] }
        view.name := by
  have hc' : ¬(alHas s.closedViews tv.name = true) := by
    rw [hclosed]
    exact fun h => Bool.noConfusion h
  have hcond : (view.initialized && view.serverVersion.isSome &&
      verGE (view.serverVersion.getD "") "6.0.0") = true := by
    rw [hinit, hsv]
    simp only [Option.isSome_some, Option.getD_some, Bool.and_self, Bool.true_and]
    exact hver
  unfold handleDeepLink
  rw [if_neg hurl]
  simp only [hres]
  rw [if_neg hc']
  simp only [hget]
  rw [if_pos hcond]

theorem handleDeepLink_reload {resolve : String → Option TabViewRef}
    {s : VMState} {url : String} {tv : TabViewRef} {view : MMView}
    (hurl : url ≠ "") (hres : resolve url = some tv)
    (hclosed : alHas s.closedViews tv.name = false)
    (hget : alGet s.views tv.name = some view)
    (hcond : (view.initialized && view.serverVersion.isSome &&
      verGE (view.serverVersion.getD "") "6.0.0") = false) :
    handleDeepLink resolve s url =
      { s with
        views := alSet s.views tv.name
          { view with
            errored := false
            loading := true
            pendingUrl := some tv.target
            dlSuccess := true
            dlFailed := true }
        loadCalls := s.loadCalls ++ [(view.name, some tv.target)] } := by
  have hc' : ¬(alHas s.closedViews tv.name = true) := by
    rw [hclosed]
    exact fun h => Bool.noConfusion h
  have hcond' : ¬(view.initialized && view.serverVersion.isSome &&
      verGE (view.serverVersion.getD "") "6.0.0") = true := by
    rw [hcond]
    exact fun h => Bool.noConfusion h
  unfold handleDeepLink
  rw [if_neg hurl]
  simp only [hres]
  rw [if_neg hc']
  simp only [hget]
  rw [if_neg hcond']

/-- C4: the deep-link version gate. For a deep link resolving to a live view:
if the view is initialized and its server reports a version ≥ 6.0.0, no
reload is triggered — only a history push, with `deeplinkSuccess` signalled
immediately; otherwise the view is re-armed and fully reloaded with the
paired success/failure listeners registered, and delivery of the next
`LOAD_SUCCESS` (resp. `LOAD_FAILED`) fires exactly the success (resp.
failure) handler and removes both paired listeners. -/
theorem C4_deeplink_version_gate :
    (∀ (resolve : String → Option TabViewRef) (s : VMState) (url : String)
        (tv : TabViewRef) (view : MMView) (vs : String),
      url ≠ "" → resolve url = some tv →
      alHas s.closedViews tv.name = false →
      alGet s.views tv.name = some view →
      view.initialized = true → view.serverVersion = some vs →
      verGE vs "6.0.0" = true →
      (handleDeepLink resolve s url).loadCalls = s.loadCalls ∧
        (handleDeepLink resolve s url).historyPushes = s.historyPushes ++
          [(view.name, "/" ++ jsReplaceFirst tv.target view.srvUrl "")] ∧
        (handleDeepLink resolve s url).dlSuccessCalls =
          s.dlSuccessCalls ++ [view.name]) ∧
    (∀ (resolve : String → Option TabViewRef) (s : VMState) (url : String)
        (tv : TabViewRef) (view : MMView),
      url ≠ "" → resolve url = some tv →
      alHas s.closedViews tv.name = false →
      alGet s.views tv.name = some view →
      (view.initialized && view.serverVersion.isSome &&
        verGE (view.serverVersion.getD "") "6.0.0") = false →
      (handleDeepLink resolve s url).loadCalls =
          s.loadCalls ++ [(view.name, some tv.target)] ∧
        (handleDeepLink resolve s url).historyPushes = s.historyPushes ∧
        (handleDeepLink resolve s url).dlSuccessCalls = s.dlSuccessCalls ∧
        alGet (handleDeepLink resolve s url).views tv.name =
          some { view with
            errored := false
            loading := true
            pendingUrl := some tv.target
            dlSuccess := true
            dlFailed := true }) ∧
    (∀ (t : VMState) (nm : String) (w : MMView),
      alGet t.views nm = some w → w.dlSuccess = true →
      (deliverLoadSuccess t nm).dlSuccessCalls = t.dlSuccessCalls ++ [nm] ∧
        (deliverLoadSuccess t nm).dlFailedCalls = t.dlFailedCalls ∧
        (alGet (deliverLoadSuccess t nm).views nm).map
          (fun x => (x.dlSuccess, x.dlFailed)) = some (false, false)) ∧
    (∀ (t : VMState) (nm : String) (w : MMView),
      alGet t.views nm = some w → w.dlFailed = true →
      (deliverLoadFailed t nm).dlFailedCalls = t.dlFailedCalls ++ [nm] ∧
        (deliverLoadFailed t nm).dlSuccessCalls = t.dlSuccessCalls ∧
        (alGet (deliverLoadFailed t nm).views nm).map
          (fun x => (x.dlSuccess, x.dlFailed)) = some (false, false)) := by
  refine ⟨?_, ?_, ?_, ?_⟩
  · intro resolve s url tv view vs hurl hres hclosed hget hinit hsv hver
    rw [handleDeepLink_push hurl hres hclosed hget hinit hsv hver]
    set s₁ : VMState := { s with historyPushes := s.historyPushes ++
      [(view.name, "/" ++ jsReplaceFirst tv.target view.srvUrl "")] } with hs₁
    have h := deeplinkSuccess_ghost s₁ view.name
    refine ⟨?_, ?_, ?_⟩
    · rw [ghost_loadCalls h]
    · rw [ghost_historyPushes h]
    · rw [ghost_dlSuccessCalls h]
  · intro resolve s url tv view hurl hres hclosed hget hcond
    rw [handleDeepLink_reload hurl hres hclosed hget hcond]
    exact ⟨rfl, rfl, rfl, alGet_alSet_self _ _ _⟩
  · intro t nm w hget hdl
    exact deliverLoadSuccess_dl hget hdl
  · intro t nm w hget hdl
    exact deliverLoadFailed_dl hget hdl

theorem hidePrev_self {s : VMState} {n : String}
    (hcv : s.currentView = some n) : hidePrev s n = s := by
  simp [hidePrev, hcv]

theorem showByName_shows_cold {s : VMState} {n : String} {v : MMView}
    (hget : alGet s.views n = some v) (hvis : v.isVisible = false)
    (herr : v.errored = false) (hcold : needsLoadingScreen v = true) :
    showByName s n =
      showLoadingScreen
        { {hidePrev s n with currentView := some n} with
          views := alSet {hidePrev s n with currentView := some n}.views n
            (showV v) } := by
  rw [showByName_main hget hvis,
    if_neg (show ¬v.errored = true by rw [herr]; exact fun h => Bool.noConfusion h),
    if_pos hcold]

theorem showByName_shows_warm {s : VMState} {n : String} {v : MMView}
    (hget : alGet s.views n = some v) (hvis : v.isVisible = false)
    (herr : v.errored = false) (hwarm : needsLoadingScreen v = false) :
    showByName s n =
      { {hidePrev s n with currentView := some n} with
        views := alSet {hidePrev s n with currentView := some n}.views n
          (showV v) } := by
  rw [showByName_main hget hvis,
    if_neg (show ¬v.errored = true by rw [herr]; exact fun h => Bool.noConfusion h),
    if_neg (show ¬needsLoadingScreen v = true by
      rw [hwarm]; exact fun h => Bool.noConfusion h)]

theorem alHas_alDel_self {α β : Type} [DecidableEq α]
    (m : List (α × β)) (k : α) : alHas (alDel m k) k = false := by
  unfold alHas
  rw [alGet_alDel]
  simp

/-- C6 counterexample: immediately after `openClosedTab` — before any
`LOAD_SUCCESS` is delivered — the reopened view is marked visible while
still loading (`view.isVisible = true`, `viewManager.ts:325`), so the view
is not kept in a hidden state until its first `LOAD_SUCCESS`. -/
theorem C6_openClosedTab_counterexample :
    alGet stateClosedTab.closedViews "A:messaging" =
        some (srvA, tabMessagingClosed) ∧
      (alGet (openClosedTab stateClosedTab "A:messaging" none).views
          "A:messaging").map (fun v => (v.isVisible, v.loading)) =
        some (true, true) :=
  ⟨rfl, rfl⟩

theorem deliverLoadSuccess_reshow {t : VMState} {nm : String} {w : MMView}
    (hget : alGet t.views nm = some w)
    (hvis : w.isVisible = true) (hact : w.onceActivate = true)
    (hdl : w.dlSuccess = false) (hocc : w.occListener = true)
    (hcv : t.currentView = some nm) :
    (alGet (deliverLoadSuccess t nm).views nm).map
        (fun x => (x.isVisible, x.loading, x.ready)) = some (true, false, true) ∧
      (deliverLoadSuccess t nm).currentView = some nm := by
  unfold deliverLoadSuccess
  simp only [hget]
  rw [if_pos hact,
    if_neg (show ¬(w.dlSuccess = true) by rw [hdl]; exact fun h => Bool.noConfusion h),
    if_pos hocc]
  set V₁ : MMView := { w with
    loading := false, ready := true, firstLoadDone := true,
    errored := false, onceActivate := false, dlSuccess := false } with hV₁
  set S : VMState := {t with views := alSet t.views nm V₁} with hS
  have hgS : alGet S.views nm = some V₁ := by
    rw [hS]
    exact alGet_alSet_self _ _ _
  have hactS : activateView S nm = S := by
    unfold activateView
    rw [if_pos (show S.currentView = some nm from hcv)]
    exact showByName_visible hgS (show V₁.isVisible = true from hvis)
  rw [hactS]
  have hoccS : occReshow S nm =
      showByName {S with views := alSet S.views nm {V₁ with isVisible := false}} nm := by
    unfold occReshow
    simp only [hgS]
  rw [hoccS]
  set U : MMView := {V₁ with isVisible := false} with hU
  set E : VMState := {S with views := alSet S.views nm U} with hE
  have hgE : alGet E.views nm = some U := by
    rw [hE]
    exact alGet_alSet_self _ _ _
  have hshowE : showByName E nm =
      { {hidePrev E nm with currentView := some nm} with
        views := alSet {hidePrev E nm with currentView := some nm}.views nm
          (showV U) } :=
    showByName_shows_warm hgE rfl rfl rfl
  rw [hshowE, hidePrev_self (show E.currentView = some nm from hcv)]
  constructor
  · show (alGet (alSet E.views nm (showV U)) nm).map
      (fun x => (x.isVisible, x.loading, x.ready)) = some (true, false, true)
    rw [alGet_alSet_self]
    rfl
  · rfl

/-- C6 as amended: `openClosedTab` moves the tab out of `closedViews` into
`views`, marks it open and begins loading it, and makes it the current view
immediately — marked visible with the loading screen raised, rather than
hidden — while still loading; on its first `LOAD_SUCCESS` the re-show
handler re-runs `showByName`, leaving it the active, visible, fully loaded
view. -/
theorem C6_openClosedTab_amended (s : VMState) (name : String)
    (url : Option String) (srv : Srv) (tab : Tab)
    (hclosed : alGet s.closedViews name = some (srv, tab))
    (hname : getTabViewName srv.name tab.name = name) :
    alHas (openClosedTab s name url).closedViews name = false ∧
      (openClosedTab s name url).loadCalls = s.loadCalls ++ [(name, url)] ∧
      (openClosedTab s name url).currentView = some name ∧
      (openClosedTab s name url).loadingScreenState = LSState.visible ∧
      (alGet (openClosedTab s name url).views name).map
        (fun x => (x.isVisible, x.loading, x.firstLoadDone, x.occListener)) =
        some (true, true, false, true) ∧
      (alGet (deliverLoadSuccess (openClosedTab s name url) name).views name).map
        (fun x => (x.isVisible, x.loading, x.ready)) = some (true, false, true) ∧
      (deliverLoadSuccess (openClosedTab s name url) name).currentView =
        some name := by
  subst hname
  set N := getTabViewName srv.name tab.name with hN
  set v : MMView :=
    { name := N
      tuple := keyOf srv.url tab.name
      srvName := srv.name
      srvUrl := srv.url
      serverVersion := none
      isVisible := false
      errored := false
      initialized := false
      ready := false
      firstLoadDone := false
      loading := true
      pendingUrl := url
      surfaceId := s.nextSurface
      onceActivate := true
      dlSuccess := false
      dlFailed := false
      occListener := false } with hv
  set sA : VMState :=
    { s with
      closedViews := alDel s.closedViews N
      nextSurface := s.nextSurface + 1
      loadCalls := s.loadCalls ++ [(N, url)]
      views := alSet s.views N v } with hsA
  have hload : loadView s srv {tab with isOpen := true} url = sA := by
    unfold loadView
    rw [if_neg (show ¬(!({tab with isOpen := true} : Tab).isOpen) = true by simp)]
    rfl
  have hgetA : alGet sA.views N = some v := by
    rw [hsA]
    exact alGet_alSet_self _ _ _
  have hshow : showByName sA N =
      showLoadingScreen
        { {hidePrev sA N with currentView := some N} with
          views := alSet {hidePrev sA N with currentView := some N}.views N
            (showV v) } :=
    showByName_shows_cold hgetA rfl rfl rfl
  obtain ⟨wA, hwA⟩ := hidePrev_eq sA N
  set v' : MMView := {v with isVisible := true, occListener := true} with hv'
  set r : VMState :=
    { sA with
      views := alSet (alSet wA N (showV v)) N v'
      currentView := some N
      loadingScreenState := LSState.visible } with hr
  have hoct : openClosedTab s N url = r := by
    unfold openClosedTab
    simp only [hclosed]
    rw [hload, hshow, hwA]
    have hgetB : alGet (showLoadingScreen
        { {({sA with views := wA} : VMState) with currentView := some N} with
          views := alSet {({sA with views := wA} : VMState) with
            currentView := some N}.views N (showV v) }).views N =
        some (showV v) := by
      show alGet (alSet wA N (showV v)) N = some (showV v)
      exact alGet_alSet_self _ _ _
    simp only [hgetB]
    rw [hr]
    rfl
  rw [hoct]
  have hgetR : alGet r.views N = some v' := by
    rw [hr]
    exact alGet_alSet_self _ _ _
  have hdeliver := deliverLoadSuccess_reshow hgetR rfl rfl rfl rfl rfl
  refine ⟨?_, ?_, ?_, ?_, ?_, hdeliver.1, hdeliver.2⟩
  · show alHas (alDel s.closedViews N) N = false
    exact alHas_alDel_self _ _
  · rfl
  · rfl
  · rfl
  · rw [hgetR]
    rfl

/-- Witness for the amended C6 at a concrete closed tab. -/
theorem C6_openClosedTab_amended_witness :
    (alGet stateClosedTab.closedViews "A:messaging" =
        some (srvA, tabMessagingClosed) ∧
       getTabViewName srvA.name tabMessagingClosed.name = "A:messaging") ∧
      (openClosedTab stateClosedTab "A:messaging" none).currentView =
        some "A:messaging" :=
  ⟨⟨rfl, rfl⟩,
    (C6_openClosedTab_amended stateClosedTab "A:messaging" none srvA
        tabMessagingClosed rfl rfl).2.2.1⟩

/-- Witness for C4 at a concrete 6.0.0 server (history-push branch). -/
theorem C4_deeplink_version_gate_witness :
    (("mattermost://a.example.com/team" : String) ≠ "" ∧
        resolveToMessaging "mattermost://a.example.com/team" =
          some ⟨"A:messaging", "http://a.example.com/team"⟩ ∧
        alHas stateV6.closedViews "A:messaging" = false ∧
        alGet stateV6.views "A:messaging" = some viewOnV6 ∧
        viewOnV6.initialized = true ∧
        viewOnV6.serverVersion = some "6.0.0" ∧
        verGE "6.0.0" "6.0.0" = true) ∧
      (handleDeepLink resolveToMessaging stateV6
          "mattermost://a.example.com/team").loadCalls = stateV6.loadCalls := by
  have hurl : ("mattermost://a.example.com/team" : String) ≠ "" := by decide
  have hver : verGE "6.0.0" "6.0.0" = true := by decide
  exact ⟨⟨hurl, rfl, rfl, rfl, rfl, rfl, hver⟩,
    (C4_deeplink_version_gate.1 resolveToMessaging stateV6
        "mattermost://a.example.com/team" ⟨"A:messaging", "http://a.example.com/team"⟩
        viewOnV6 "6.0.0" hurl rfl rfl rfl rfl rfl hver).1⟩

/-! ## Disjointness of `views` and `closedViews` -/

theorem alHas_alDel_false {α : Type} {β : Type v} [DecidableEq α]
    {m : List (α × β)} {k n : α}
    (h : alHas m k = false) : alHas (alDel m n) k = false := by
  unfold alHas at h ⊢
  rw [alGet_alDel]
  by_cases hk : k = n
  · rw [if_pos hk]
    rfl
  · rw [if_neg hk]
    exact h

theorem alHas_foldl_alSet_key {α : Type} {β : Type v} {γ : Type w}
    [DecidableEq α] (key : γ → α) (val : γ → β) :
    ∀ (l : List γ) (acc : List (α × β)) (n : α),
      alHas (l.foldl (fun m e => alSet m (key e) (val e)) acc) n = true ↔
        (alHas acc n = true ∨ ∃ e ∈ l, key e = n) := by
  intro l
  induction l with
  | nil =>
    intro acc n
    simp
  | cons g rest ih =>
    intro acc n
    simp only [List.foldl_cons]
    rw [ih]
    rw [alHas_alSet_iff]
    constructor
    · rintro ((h | h) | h)
      · exact Or.inr ⟨g, List.mem_cons_self _ _, h.symm⟩
      · exact Or.inl h
      · rcases h with ⟨e, he, hke⟩
        exact Or.inr ⟨e, List.mem_cons_of_mem _ he, hke⟩
    · rintro (h | ⟨e, he, hke⟩)
      · exact Or.inl (Or.inr h)
      · rcases List.mem_cons.mp he with heq | hmem
        · exact Or.inl (Or.inl (by rw [← heq]; exact hke.symm))
        · exact Or.inr ⟨e, hmem, hke⟩

theorem disjointMaps_of_keys {a b : VMState}
    (hk : a.views.map Prod.fst = b.views.map Prod.fst)
    (hc : a.closedViews = b.closedViews) (hd : disjointMaps b) :
    disjointMaps a := by
  intro p hp
  have h₁ : p.1 ∈ b.views.map Prod.fst := by
    rw [← hk]
    exact List.mem_map_of_mem Prod.fst hp
  rcases List.mem_map.mp h₁ with ⟨q, hq, hq1⟩
  rw [hc, ← hq1]
  exact hd q hq

theorem disjointMaps_showByName {s : VMState} (n : String)
    (hd : disjointMaps s) : disjointMaps (showByName s n) :=
  disjointMaps_of_keys (showByName_keys s n)
    (ghost_closedViews (showByName_ghost s n)) hd

theorem showInitial_cases (s : VMState) :
    showInitial s = s ∨ ∃ nm, showInitial s = showByName s nm := by
  simp only [showInitial]
  by_cases h : s.configServers.isEmpty
  · rw [if_pos h]
    exact Or.inl rfl
  · rw [if_neg h]
    split
    · exact Or.inl rfl
    · split
      · exact Or.inl rfl
      · split
        · exact Or.inl rfl
        · exact Or.inr ⟨_, rfl⟩

theorem disjointMaps_showInitial {s : VMState} (hd : disjointMaps s) :
    disjointMaps (showInitial s) := by
  rcases showInitial_cases s with h | ⟨nm, h⟩
  · rw [h]
    exact hd
  · rw [h]
    exact disjointMaps_showByName nm hd

theorem mem_reloadClosedMap {config : List TeamWithTabs} {e : Extra}
    (h : e ∈ alValues (reloadClosedMap config)) :
    ∃ srv ∈ config, ∃ t ∈ srv.tabs, t.isOpen = false ∧ e = extraData srv t := by
  rcases List.mem_map.mp h with ⟨p, hp, hpe⟩
  have hp' : p ∈ closedPairs config := mem_of_mem_mapFrom hp
  obtain ⟨hc, ho⟩ := mem_closedPairs.mp hp'
  rcases mem_configPairs.mp hc with ⟨srv, hsrv, t, ht, hpq⟩
  refine ⟨srv, hsrv, t, ht, ?_, ?_⟩
  · rw [hpq] at ho
    exact ho
  · rw [← hpe, hpq]

theorem mem_openPairs_elim {config : List TeamWithTabs} {k : TabTuple}
    {e : Extra} (h : (k, e) ∈ openPairs config) :
    ∃ srv ∈ config, ∃ t ∈ srv.tabs, t.isOpen = true ∧
      k = keyOf srv.url t.name ∧ e = extraData srv t := by
  obtain ⟨hc, ho⟩ := mem_openPairs.mp h
  rcases mem_configPairs.mp hc with ⟨srv, hsrv, t, ht, hpq⟩
  injection hpq with h₁ h₂
  refine ⟨srv, hsrv, t, ht, ?_, h₁, h₂⟩
  rw [h₂] at ho
  exact ho

theorem reloadOpenBuild_fst (s : VMState) (config : List TeamWithTabs) :
    (reloadOpenBuild s config).1 =
      (buildOpen (currentTupMap s) s (openPairs config)).1 := rfl

theorem reloadOpenBuild_snd (s : VMState) (config : List TeamWithTabs) :
    (reloadOpenBuild s config).2 =
      mapFrom (buildOpen (currentTupMap s) s (openPairs config)).2 := rfl

theorem reloadCommit_views (s : VMState) (config : List TeamWithTabs) :
    (reloadCommit s config).views =
      mapFrom ((alValues (reloadOpenBuild s config).2).map
        (fun x => (x.name, x))) := rfl

theorem reloadCommit_closedViews (s : VMState) (config : List TeamWithTabs) :
    (reloadCommit s config).closedViews =
      (alValues (reloadClosedMap config)).foldl
        (fun m e => alSet m e.viewName (e.srv, e.tab))
        (reloadOpenBuild s config).1.closedViews := rfl

theorem disjointMaps_reloadCommit {s : VMState} {config : List TeamWithTabs}
    (hd : disjointMaps s) (hwk : wellKeyed s) (hnm : namesMatchKeys s config)
    (hni : configNamesInj config) (hki : configKeysInj config) :
    disjointMaps (reloadCommit s config) := by
  intro p hp
  rw [reloadCommit_views] at hp
  rw [reloadCommit_closedViews]
  have hp₁ := mem_of_mem_mapFrom hp
  rcases List.mem_map.mp hp₁ with ⟨x, hx, hxe⟩
  rcases List.mem_map.mp hx with ⟨q, hq, hq2⟩
  rw [reloadOpenBuild_snd] at hq
  obtain ⟨k, w⟩ := q
  have hq' := mem_of_mem_mapFrom hq
  obtain ⟨e, hel, hcase⟩ := buildOpen_snd_mem _ _ _ hq'
  have hp1 : p.1 = x.name := by rw [← hxe]
  rw [hp1]
  refine Bool.eq_false_iff.mpr (fun htrue => ?_)
  rw [reloadOpenBuild_fst] at htrue
  rcases (alHas_foldl_alSet_key (fun (e : Extra) => e.viewName)
      (fun (e : Extra) => (e.srv, e.tab)) _ _ _).mp htrue with
    hinit | ⟨e', he', hke'⟩
  · obtain ⟨hcv, hfresh⟩ := buildOpen_closed _ _ _ hinit
    rcases hcase with ⟨old, hcur, hwrec⟩ | ⟨hnone, sid, hwfresh⟩
    · have hkold : (k, old) ∈ currentTupMap s := mem_of_alGet_eq_some hcur
      obtain ⟨hval, hktup⟩ := mem_currentTupMap hkold
      rcases List.mem_map.mp hval with ⟨r, hr, hr2⟩
      have hname : x.name = old.name := by
        rw [← hq2, hwrec]
        rfl
      have hkey : old.name = r.1 := by
        rw [← hr2]
        exact hwk r hr
      have hdis : alHas s.closedViews r.1 = false := hd r hr
      rw [hname, hkey, hdis] at hcv
      exact Bool.noConfusion hcv
    · have hname : x.name = getTabViewName e.srv.name e.tab.name := by
        rw [← hq2, hwfresh]
        rfl
      exact hfresh k e hel hnone hname.symm
  · obtain ⟨srv', hsrv', t', ht', hto', hee'⟩ := mem_reloadClosedMap he'
    obtain ⟨srv₀, hs₀, t₀, ht₀, hopen₀, hk₀, he₀⟩ := mem_openPairs_elim hel
    have hvn : e'.viewName = getTabViewName srv'.name t'.name := by
      rw [hee']
      rfl
    rcases hcase with ⟨old, hcur, hwrec⟩ | ⟨hnone, sid, hwfresh⟩
    · have hkold : (k, old) ∈ currentTupMap s := mem_of_alGet_eq_some hcur
      obtain ⟨hval, hktup⟩ := mem_currentTupMap hkold
      have hname : x.name = old.name := by
        rw [← hq2, hwrec]
        rfl
      have holdname : old.name = getTabViewName srv'.name t'.name := by
        rw [← hname, ← hke', hvn]
      have htup : old.tuple = keyOf srv'.url t'.name :=
        hnm old hval srv' hsrv' t' ht' holdname
      have hkk : keyOf srv'.url t'.name = keyOf srv₀.url t₀.name := by
        rw [← htup, ← hktup, hk₀]
      obtain ⟨hseq, hteq⟩ := hki srv' hsrv' t' ht' srv₀ hs₀ t₀ ht₀ hkk
      rw [hteq] at hto'
      rw [hopen₀] at hto'
      exact Bool.noConfusion hto'
    · have hname : x.name = getTabViewName e.srv.name e.tab.name := by
        rw [← hq2, hwfresh]
        rfl
      have hname₀ : x.name = getTabViewName srv₀.name t₀.name := by
        rw [hname, he₀]
        rfl
      have hcoll : getTabViewName srv₀.name t₀.name =
          getTabViewName srv'.name t'.name := by
        rw [← hname₀, ← hke', hvn]
      obtain ⟨hseq, hteq⟩ := hni srv₀ hs₀ t₀ ht₀ srv' hsrv' t' ht' hcoll
      rw [← hteq] at hto'
      rw [hopen₀] at hto'
      exact Bool.noConfusion hto'

theorem reloadConfiguration_shape (s : VMState) (config : List TeamWithTabs) :
    ∃ u : VMState,
      (u = reloadCommit s config ∨
        u = showInitial {reloadCommit s config with currentView := none}) ∧
      (reloadConfiguration s config = showInitial u ∨
        ∃ nm, reloadConfiguration s config =
          showByName {u with currentView := some nm} nm) := by
  cases hft : focusedTuple s with
  | none =>
    refine ⟨reloadCommit s config, Or.inl rfl, Or.inl ?_⟩
    simp only [reloadConfiguration, hft]
  | some t =>
    by_cases hcond :
        (alHas (currentTupMap s) t || alHas (reloadClosedMap config) t) = true
    · by_cases hemp : config.isEmpty = true
      · refine ⟨reloadCommit s config, Or.inl rfl, ?_⟩
        cases halg : alGet (reloadOpenMap s config) t with
        | some w =>
          refine Or.inr ⟨w.name, ?_⟩
          simp only [reloadConfiguration, hft, halg, if_pos hcond, if_pos hemp]
        | none =>
          refine Or.inl ?_
          simp only [reloadConfiguration, hft, halg, if_pos hcond, if_pos hemp]
      · refine ⟨showInitial {reloadCommit s config with currentView := none},
          Or.inr rfl, ?_⟩
        cases halg : alGet (reloadOpenMap s config) t with
        | some w =>
          refine Or.inr ⟨w.name, ?_⟩
          simp only [reloadConfiguration, hft, halg, if_pos hcond, if_neg hemp]
        | none =>
          refine Or.inl ?_
          simp only [reloadConfiguration, hft, halg, if_pos hcond, if_neg hemp]
    · refine ⟨reloadCommit s config, Or.inl rfl, ?_⟩
      cases halg : alGet (reloadOpenMap s config) t with
      | some w =>
        refine Or.inr ⟨w.name, ?_⟩
        simp only [reloadConfiguration, hft, halg, if_neg hcond]
      | none =>
        refine Or.inl ?_
        simp only [reloadConfiguration, hft, halg, if_neg hcond]

theorem disjointMaps_reloadConfiguration {s : VMState}
    {config : List TeamWithTabs}
    (hd : disjointMaps s) (hwk : wellKeyed s) (hnm : namesMatchKeys s config)
    (hni : configNamesInj config) (hki : configKeysInj config) :
    disjointMaps (reloadConfiguration s config) := by
  have hc : disjointMaps (reloadCommit s config) :=
    disjointMaps_reloadCommit hd hwk hnm hni hki
  obtain ⟨u, hu, hres⟩ := reloadConfiguration_shape s config
  have hdu : disjointMaps u := by
    rcases hu with h | h
    · rw [h]
      exact hc
    · rw [h]
      exact disjointMaps_showInitial hc
  rcases hres with h | ⟨nm, h⟩
  · rw [h]
    exact disjointMaps_showInitial hdu
  · rw [h]
    exact disjointMaps_showByName nm hdu

theorem disjointMaps_makeView {s : VMState} (srv : Srv) (tab : Tab)
    (url : Option String) (hd : disjointMaps s) :
    disjointMaps (makeView s srv tab url).1 := by
  intro p hp
  have hp' : p ∈ s.views := hp
  have h : alHas (alDel s.closedViews (getTabViewName srv.name tab.name))
      p.1 = false :=
    alHas_alDel_false (hd p hp')
  exact h

theorem disjointMaps_loadView {s : VMState} {srv : Srv} {tab : Tab}
    {url : Option String} (hd : disjointMaps s)
    (hcl : tab.isOpen = false →
      alHas s.views (getTabViewName srv.name tab.name) = false) :
    disjointMaps (loadView s srv tab url) := by
  cases ho : tab.isOpen with
  | false =>
    have hres : loadView s srv tab url =
        {s with
          closedViews :=
            alSet s.closedViews (getTabViewName srv.name tab.name) (srv, tab)} := by
      unfold loadView
      rw [ho]
      rfl
    rw [hres]
    intro p hp
    have hp' : p ∈ s.views := hp
    refine Bool.eq_false_iff.mpr (fun htrue => ?_)
    have htrue' : alHas (alSet s.closedViews (getTabViewName srv.name tab.name)
        (srv, tab)) p.1 = true := htrue
    rcases alHas_alSet_iff.mp htrue' with heq | hhas
    · have h₁ : alHas s.views p.1 = true := alHas_of_mem hp'
      rw [heq] at h₁
      rw [hcl ho] at h₁
      exact Bool.noConfusion h₁
    · have h₂ := hd p hp'
      rw [h₂] at hhas
      exact Bool.noConfusion hhas
  | true =>
    have hres : loadView s srv tab url =
        addView (makeView s srv tab url).1 (makeView s srv tab url).2 := by
      unfold loadView
      rw [ho]
      rfl
    rw [hres]
    intro p hp
    have hp' : p ∈ alSet s.views (getTabViewName srv.name tab.name)
        (freshView srv tab url s.nextSurface) := hp
    refine Bool.eq_false_iff.mpr (fun htrue => ?_)
    have htrue' : alHas (alDel s.closedViews (getTabViewName srv.name tab.name))
        p.1 = true := htrue
    rcases mem_alSet_of_mem hp' with hin | heq
    · rw [alHas_alDel_false (hd p hin)] at htrue'
      exact Bool.noConfusion htrue'
    · rw [heq] at htrue'
      have hself : alHas (alDel s.closedViews
          (getTabViewName srv.name tab.name))
          (getTabViewName srv.name tab.name) = true := htrue'
      rw [alHas_alDel_self] at hself
      exact Bool.noConfusion hself

theorem disjointMaps_openClosedTab {s : VMState} (name : String)
    (url : Option String) (hd : disjointMaps s) :
    disjointMaps (openClosedTab s name url) := by
  cases hcv : alGet s.closedViews name with
  | none =>
    have hres : openClosedTab s name url = s := by
      unfold openClosedTab
      rw [hcv]
    rw [hres]
    exact hd
  | some st =>
    obtain ⟨srv, tab⟩ := st
    have h₁ : disjointMaps (loadView s srv {tab with isOpen := true} url) := by
      apply disjointMaps_loadView hd
      intro hfalse
      have hff : (true : Bool) = false := hfalse
      exact Bool.noConfusion hff
    have h₂ : disjointMaps
        (showByName (loadView s srv {tab with isOpen := true} url) name) :=
      disjointMaps_showByName name h₁
    cases hg : alGet (showByName (loadView s srv {tab with isOpen := true} url)
        name).views name with
    | none =>
      have hres : openClosedTab s name url =
          showByName (loadView s srv {tab with isOpen := true} url) name := by
        simp only [openClosedTab, hcv, hg]
      rw [hres]
      exact h₂
    | some view =>
      have hres : openClosedTab s name url =
          {(showByName (loadView s srv {tab with isOpen := true} url) name) with
            views := alSet (showByName (loadView s srv
                {tab with isOpen := true} url) name).views name
              {view with isVisible := true, occListener := true}} := by
        simp only [openClosedTab, hcv, hg]
      rw [hres]
      intro p hp
      have hp' : p ∈ alSet (showByName (loadView s srv
          {tab with isOpen := true} url) name).views name
          {view with isVisible := true, occListener := true} := hp
      rcases mem_alSet_of_mem hp' with hin | heq
      · exact h₂ p hin
      · have hmem : (name, view) ∈ (showByName (loadView s srv
            {tab with isOpen := true} url) name).views :=
          mem_of_alGet_eq_some hg
        have h₃ := h₂ (name, view) hmem
        rw [heq]
        exact h₃

/-- C7: disjointness invariant — after each ViewManager operation (`makeView`,
`loadView`, `openClosedTab`, `reloadConfiguration`) the key sets of `views`
and `closedViews` remain disjoint, assuming it held before. `loadView`'s
closed branch additionally needs the tab's derived name not to be live
(guaranteed at its call sites: configuration reload and `openClosedTab`, both
of which only record genuinely closed tabs), and `reloadConfiguration` needs
the standing well-formedness facts: views keyed by their names, view names
matching config-derived TabKeys, and no derived-name or TabKey collisions
inside the configuration. -/
theorem C7_disjointness (s : VMState) (srv : Srv) (tab : Tab)
    (url : Option String) (name : String) (config : List TeamWithTabs)
    (hd : disjointMaps s) (hwk : wellKeyed s) (hnm : namesMatchKeys s config)
    (hni : configNamesInj config) (hki : configKeysInj config)
    (hcl : tab.isOpen = false →
      alHas s.views (getTabViewName srv.name tab.name) = false) :
    disjointMaps (makeView s srv tab url).1 ∧
      disjointMaps (loadView s srv tab url) ∧
      disjointMaps (openClosedTab s name url) ∧
      disjointMaps (reloadConfiguration s config) :=
  ⟨disjointMaps_makeView srv tab url hd,
    disjointMaps_loadView hd hcl,
    disjointMaps_openClosedTab name url hd,
    disjointMaps_reloadConfiguration hd hwk hnm hni hki⟩

/-- Witness for C7 at a concrete state with one live and one closed view. -/
theorem C7_disjointness_witness :
    disjointMaps (makeView stateClosedTab srvA tabMessagingClosed none).1 ∧
      disjointMaps (loadView stateClosedTab srvA tabMessagingClosed none) ∧
      disjointMaps (openClosedTab stateClosedTab "A:messaging" none) ∧
      disjointMaps (reloadConfiguration stateClosedTab [teamABothOpen]) :=
  C7_disjointness stateClosedTab srvA tabMessagingClosed none "A:messaging"
    [teamABothOpen]
    (by unfold disjointMaps; decide)
    (by unfold wellKeyed; decide)
    (by unfold namesMatchKeys; decide)
    (by unfold configNamesInj; decide)
    (by unfold configKeysInj; decide)
    (by decide)

/-! ## Focus preservation by `reloadConfiguration` -/

theorem showByName_cases_cv (s : VMState) (n : String) :
    showByName s n = s ∨
      ((showByName s n).currentView = some n ∧
        alHas (showByName s n).views n = true) := by
  cases hg : alGet s.views n with
  | none => exact Or.inl (showByName_miss hg)
  | some v =>
    cases hb : v.isVisible with
    | true => exact Or.inl (showByName_visible hg hb)
    | false =>
      refine Or.inr ⟨?_, ?_⟩
      · rw [showByName_main hg hb]
        by_cases he : v.errored = true
        · rw [if_pos he]
        · rw [if_neg he]
          by_cases hl : needsLoadingScreen v = true
          · rw [if_pos hl]
            rfl
          · rw [if_neg hl]
      · apply alHas_iff_mem_keys.mpr
        rw [showByName_keys]
        apply alHas_iff_mem_keys.mp
        unfold alHas
        rw [hg]
        rfl

theorem showByName_currentView {s : VMState} {n : String}
    (h : s.currentView = some n) : (showByName s n).currentView = some n := by
  rcases showByName_cases_cv s n with heq | hcv
  · rw [heq]
    exact h
  · exact hcv.1

theorem currentViewOK_showByName {s : VMState} (n : String)
    (h : currentViewOK s) : currentViewOK (showByName s n) := by
  rcases showByName_cases_cv s n with heq | ⟨h₁, h₂⟩
  · rw [heq]
    exact h
  · unfold currentViewOK
    rw [h₁]
    exact h₂

theorem currentViewOK_showInitial {s : VMState} (h : currentViewOK s) :
    currentViewOK (showInitial s) := by
  rcases showInitial_cases s with heq | ⟨nm, heq⟩
  · rw [heq]
    exact h
  · rw [heq]
    exact currentViewOK_showByName nm h

theorem showInitial_get_stripVis (s : VMState) (k : String) :
    (alGet (showInitial s).views k).map stripVis =
      (alGet s.views k).map stripVis := by
  rcases showInitial_cases s with heq | ⟨nm, heq⟩
  · rw [heq]
  · rw [heq]
    exact showByName_get_stripVis s nm k

theorem focused_in_current {s : VMState} {K : TabTuple}
    (hft : focusedTuple s = some K) : alHas (currentTupMap s) K = true := by
  unfold focusedTuple at hft
  cases hcv : s.currentView with
  | none =>
    rw [hcv] at hft
    exact Option.noConfusion hft
  | some cur =>
    simp only [hcv] at hft
    cases hg : alGet s.views cur with
    | none =>
      rw [hg] at hft
      exact Option.noConfusion hft
    | some v =>
      rw [hg] at hft
      injection hft with h
      apply alHas_currentTupMap.mpr
      exact ⟨v, List.mem_map.mpr ⟨(cur, v), mem_of_alGet_eq_some hg, rfl⟩, h⟩

theorem keyIn_ne_nil {config : List TeamWithTabs} {K : TabTuple}
    (h : keyIn config K = true) : config.isEmpty = false := by
  cases config with
  | nil =>
    unfold keyIn at h
    exact absurd h (by simp)
  | cons a l => rfl

theorem keyOpenIn_ne_nil {config : List TeamWithTabs} {K : TabTuple}
    (h : keyOpenIn config K = true) : config.isEmpty = false := by
  cases config with
  | nil =>
    unfold keyOpenIn at h
    exact absurd h (by simp)
  | cons a l => rfl

theorem alHas_reloadOpenMap_iff {s : VMState} {config : List TeamWithTabs}
    {K : TabTuple} :
    alHas (reloadOpenMap s config) K = true ↔ keyOpenIn config K = true := by
  have h₁ : alHas (reloadOpenMap s config) K = true ↔
      K ∈ ((buildOpen (currentTupMap s) s (openPairs config)).2).map Prod.fst := by
    unfold reloadOpenMap
    rw [reloadOpenBuild_snd]
    exact alHas_mapFrom_iff
  rw [h₁, buildOpen_snd_keys]
  exact keyOpenIn_iff.symm

theorem reloadOpenMap_tuple {s : VMState} {config : List TeamWithTabs}
    {K : TabTuple} {w : MMView}
    (h : alGet (reloadOpenMap s config) K = some w) : w.tuple = K := by
  have hmem : (K, w) ∈ reloadOpenMap s config := mem_of_alGet_eq_some h
  rw [reloadOpenMap, reloadOpenBuild_snd] at hmem
  have hmem' := mem_of_mem_mapFrom hmem
  obtain ⟨e, hel, hcase⟩ := buildOpen_snd_mem _ _ _ hmem'
  rcases hcase with ⟨old, hcur, hwrec⟩ | ⟨hnone, sid, hwfresh⟩
  · have hkold : (K, old) ∈ currentTupMap s := mem_of_alGet_eq_some hcur
    obtain ⟨hval, hktup⟩ := mem_currentTupMap hkold
    rw [hwrec]
    exact hktup.symm
  · obtain ⟨srv₀, hs₀, t₀, ht₀, hopen₀, hk₀, he₀⟩ := mem_openPairs_elim hel
    rw [hwfresh, he₀, hk₀]
    rfl

theorem reloadCommit_get {s : VMState} {config : List TeamWithTabs}
    {w : MMView}
    (hnames : ((alValues (reloadOpenMap s config)).map
      (fun v => v.name)).Nodup)
    (hw : w ∈ alValues (reloadOpenMap s config)) :
    alGet (reloadCommit s config).views w.name = some w := by
  have hkeys : (((alValues (reloadOpenMap s config)).map
      (fun x => (x.name, x))).map Prod.fst).Nodup := by
    rw [List.map_map]
    exact hnames
  have hmem : (w.name, w) ∈ (alValues (reloadOpenMap s config)).map
      (fun x => (x.name, x)) :=
    List.mem_map.mpr ⟨w, hw, rfl⟩
  have h₁ : alGet (mapFrom ((alValues (reloadOpenMap s config)).map
      (fun x => (x.name, x)))) w.name = some w := by
    rw [mapFrom_eq_self_of_nodup hkeys]
    exact alGet_eq_some_of_mem_nodup hmem hkeys
  exact h₁

theorem reloadConfiguration_hit {s : VMState} {config : List TeamWithTabs}
    {K : TabTuple} {w : MMView}
    (hft : focusedTuple s = some K)
    (halg : alGet (reloadOpenMap s config) K = some w)
    (hcond : (alHas (currentTupMap s) K ||
      alHas (reloadClosedMap config) K) = true)
    (hemp : ¬config.isEmpty = true) :
    reloadConfiguration s config =
      showByName
        {showInitial {reloadCommit s config with currentView := none} with
          currentView := some w.name} w.name := by
  simp only [reloadConfiguration, hft, halg, if_pos hcond, if_neg hemp]

theorem reloadConfiguration_miss {s : VMState} {config : List TeamWithTabs}
    {K : TabTuple}
    (hft : focusedTuple s = some K)
    (halg : alGet (reloadOpenMap s config) K = none)
    (hcond : (alHas (currentTupMap s) K ||
      alHas (reloadClosedMap config) K) = true)
    (hemp : ¬config.isEmpty = true) :
    reloadConfiguration s config =
      showInitial (showInitial
        {reloadCommit s config with currentView := none}) := by
  simp only [reloadConfiguration, hft, halg, if_pos hcond, if_neg hemp]

/-- C1: focus preservation — with an active view of TabKey `K` captured as
`focusedTuple`, and a new configuration still containing `K` (open or
closed), `reloadConfiguration` re-selects the view whose key is `K` when `K`
is still open (its name becomes `currentView` and the live view registered
under that name carries key `K`); when `K` is no longer open, the result is
exactly the default selection computed by `showInitial` (run on the
committed state with focus cleared; the interleaved focus block makes it run
twice, which is idempotent on the selection); and `currentView` is never
left dangling. The no-collision hypothesis on the rebuilt views' names
makes the name-keyed commit lossless. -/
theorem C1_focus_preservation (s : VMState) (config : List TeamWithTabs)
    (K : TabTuple)
    (hft : focusedTuple s = some K)
    (hin : keyIn config K = true)
    (hnames : ((alValues (reloadOpenMap s config)).map
      (fun v => v.name)).Nodup) :
    (keyOpenIn config K = true →
      ∃ w, alGet (reloadOpenMap s config) K = some w ∧
        (reloadConfiguration s config).currentView = some w.name ∧
        ∃ w', alGet (reloadConfiguration s config).views w.name = some w' ∧
          w'.tuple = K) ∧
    (keyOpenIn config K = false →
      reloadConfiguration s config =
        showInitial (showInitial
          {reloadCommit s config with currentView := none})) ∧
    currentViewOK (reloadConfiguration s config) := by
  have hcond : (alHas (currentTupMap s) K ||
      alHas (reloadClosedMap config) K) = true := by
    rw [focused_in_current hft]
    rfl
  have hemp : ¬config.isEmpty = true := by
    rw [keyIn_ne_nil hin]
    exact fun hh => Bool.noConfusion hh
  cases hopen : keyOpenIn config K with
  | true =>
    have hhas : alHas (reloadOpenMap s config) K = true :=
      alHas_reloadOpenMap_iff.mpr hopen
    cases halg : alGet (reloadOpenMap s config) K with
    | none =>
      unfold alHas at hhas
      rw [halg] at hhas
      exact absurd hhas (by simp)
    | some w =>
      have hres := reloadConfiguration_hit hft halg hcond hemp
      have hwmem : w ∈ alValues (reloadOpenMap s config) :=
        List.mem_map.mpr ⟨(K, w), mem_of_alGet_eq_some halg, rfl⟩
      have hcget : alGet (reloadCommit s config).views w.name = some w :=
        reloadCommit_get hnames hwmem
      have hstrip1 :
          (alGet (showInitial {reloadCommit s config with
            currentView := none}).views w.name).map stripVis =
          (alGet (reloadCommit s config).views w.name).map stripVis :=
        showInitial_get_stripVis _ w.name
      have hstrip2 :
          (alGet (reloadConfiguration s config).views w.name).map stripVis =
            some (stripVis w) := by
        rw [hres]
        have h₁ := showByName_get_stripVis
          {showInitial {reloadCommit s config with currentView := none} with
            currentView := some w.name} w.name w.name
        rw [h₁]
        have h₂ : (alGet (showInitial {reloadCommit s config with
            currentView := none}).views w.name).map stripVis =
            some (stripVis w) := by
          rw [hstrip1, hcget]
          rfl
        exact h₂
      have hcv : (reloadConfiguration s config).currentView = some w.name := by
        rw [hres]
        exact showByName_currentView rfl
      cases hw' : alGet (reloadConfiguration s config).views w.name with
      | none =>
        rw [hw'] at hstrip2
        exact absurd hstrip2 (by simp)
      | some w' =>
        rw [hw'] at hstrip2
        have hsv : stripVis w' = stripVis w := by
          injection hstrip2
        have htuple : w'.tuple = w.tuple := by
          have h := congrArg MMView.tuple hsv
          exact h
        have hK : w.tuple = K := reloadOpenMap_tuple halg
        refine ⟨?_, ?_, ?_⟩
        · intro _
          exact ⟨w, rfl, hcv, w', hw', htuple.trans hK⟩
        · intro hfalse
          exact Bool.noConfusion hfalse
        · simp only [currentViewOK, hcv]
          unfold alHas
          rw [hw']
          rfl
  | false =>
    have hnone : alGet (reloadOpenMap s config) K = none := by
      apply alGet_eq_none_of_not_has
      cases hh : alHas (reloadOpenMap s config) K with
      | false => rfl
      | true =>
        have h₁ := alHas_reloadOpenMap_iff.mp hh
        rw [h₁] at hopen
        exact Bool.noConfusion hopen
    have hres := reloadConfiguration_miss hft hnone hcond hemp
    refine ⟨?_, ?_, ?_⟩
    · intro htrue
      exact Bool.noConfusion htrue
    · intro _
      exact hres
    · rw [hres]
      apply currentViewOK_showInitial
      apply currentViewOK_showInitial
      exact trivial

/-- Witness for C1: a state focused on `A:messaging` reconfigured with a
configuration that still has both tabs open. -/
theorem C1_focus_preservation_witness :
    focusedTuple stateBothOpen =
        some ⟨"http://a.example.com/", "messaging"⟩ ∧
      keyIn [teamABothOpen] ⟨"http://a.example.com/", "messaging"⟩ = true ∧
      ((alValues (reloadOpenMap stateBothOpen [teamABothOpen])).map
        (fun v => v.name)).Nodup ∧
      currentViewOK (reloadConfiguration stateBothOpen [teamABothOpen]) :=
  ⟨by decide, by decide, by decide,
    (C1_focus_preservation stateBothOpen [teamABothOpen]
      ⟨"http://a.example.com/", "messaging"⟩ (by decide) (by decide)
      (by decide)).2.2⟩

/-! ## Identity stability under pure reordering -/

theorem showInitial_keys (s : VMState) :
    (showInitial s).views.map Prod.fst = s.views.map Prod.fst := by
  rcases showInitial_cases s with heq | ⟨nm, heq⟩
  · rw [heq]
  · rw [heq]
    exact showByName_keys s nm

theorem showInitial_ghost (s : VMState) :
    ghostState (showInitial s) = ghostState s := by
  rcases showInitial_cases s with heq | ⟨nm, heq⟩
  · rw [heq]
  · rw [heq]
    exact showByName_ghost s nm

theorem reloadConfiguration_ghost_commit (s : VMState)
    (config : List TeamWithTabs) :
    ghostState (reloadConfiguration s config) =
      ghostState (reloadCommit s config) := by
  obtain ⟨u, hu, hres⟩ := reloadConfiguration_shape s config
  have hgu : ghostState u = ghostState (reloadCommit s config) := by
    rcases hu with h | h
    · rw [h]
    · rw [h, showInitial_ghost]
      rfl
  rcases hres with h | ⟨nm, h⟩
  · rw [h, showInitial_ghost]
    exact hgu
  · rw [h, showByName_ghost]
    rw [← hgu]
    rfl

theorem reloadConfiguration_keys (s : VMState) (config : List TeamWithTabs) :
    (reloadConfiguration s config).views.map Prod.fst =
      (reloadCommit s config).views.map Prod.fst := by
  obtain ⟨u, hu, hres⟩ := reloadConfiguration_shape s config
  have hku : u.views.map Prod.fst =
      (reloadCommit s config).views.map Prod.fst := by
    rcases hu with h | h
    · rw [h]
    · rw [h, showInitial_keys]
  rcases hres with h | ⟨nm, h⟩
  · rw [h, showInitial_keys]
    exact hku
  · rw [h, showByName_keys]
    exact hku

theorem reloadConfiguration_get_stripVis (s : VMState)
    (config : List TeamWithTabs) (k : String) :
    (alGet (reloadConfiguration s config).views k).map stripVis =
      (alGet (reloadCommit s config).views k).map stripVis := by
  obtain ⟨u, hu, hres⟩ := reloadConfiguration_shape s config
  have hgu : (alGet u.views k).map stripVis =
      (alGet (reloadCommit s config).views k).map stripVis := by
    rcases hu with h | h
    · rw [h]
    · rw [h]
      exact showInitial_get_stripVis _ k
  rcases hres with h | ⟨nm, h⟩
  · rw [h, showInitial_get_stripVis]
    exact hgu
  · rw [h, showByName_get_stripVis]
    exact hgu

theorem reloadOpenMap_mem_tuple {s : VMState} {config : List TeamWithTabs}
    {k : TabTuple} {w : MMView}
    (hmem : (k, w) ∈ reloadOpenMap s config) : w.tuple = k := by
  rw [reloadOpenMap, reloadOpenBuild_snd] at hmem
  have hmem' := mem_of_mem_mapFrom hmem
  obtain ⟨e, hel, hcase⟩ := buildOpen_snd_mem _ _ _ hmem'
  rcases hcase with ⟨old, hcur, hwrec⟩ | ⟨hnone, sid, hwfresh⟩
  · have hkold : (k, old) ∈ currentTupMap s := mem_of_alGet_eq_some hcur
    obtain ⟨hval, hktup⟩ := mem_currentTupMap hkold
    rw [hwrec]
    exact hktup.symm
  · obtain ⟨srv₀, hs₀, t₀, ht₀, hopen₀, hk₀, he₀⟩ := mem_openPairs_elim hel
    rw [hwfresh, he₀, hk₀]
    rfl

theorem tabs_any_congr {u : String} {K : TabTuple} {l₁ l₂ : List Tab}
    (h : List.Forall₂ tabSameModOrder l₁ l₂) :
    (l₁.any (fun t => t.isOpen && (keyOf u t.name = K))) =
      (l₂.any (fun t => t.isOpen && (keyOf u t.name = K))) := by
  induction h with
  | nil => rfl
  | cons htab hrest ih =>
    simp only [List.any_cons]
    rw [ih]
    congr 1
    obtain ⟨htn, hto⟩ := htab
    rw [htn, hto]

theorem keyOpenIn_congr {c₁ c₂ : List TeamWithTabs}
    (h : configsSameModOrder c₁ c₂) (K : TabTuple) :
    keyOpenIn c₁ K = keyOpenIn c₂ K := by
  unfold configsSameModOrder at h
  unfold keyOpenIn
  induction h with
  | nil => rfl
  | cons hsrv hrest ih =>
    simp only [List.any_cons]
    rw [ih]
    congr 1
    obtain ⟨hname, hurl, htabs⟩ := hsrv
    rw [hurl]
    exact tabs_any_congr htabs

theorem reloadCommit_destroyedSurfaces (s : VMState)
    (config : List TeamWithTabs) :
    (reloadCommit s config).destroyedSurfaces =
      (reloadOpenBuild s config).1.destroyedSurfaces ++
        (((currentTupMap s).filter (fun kv =>
          !(alHas (reloadOpenBuild s config).2 kv.1))).map
            (fun kv => kv.2.surfaceId)) := rfl

theorem reloadCommit_nextSurface (s : VMState) (config : List TeamWithTabs) :
    (reloadCommit s config).nextSurface =
      (reloadOpenBuild s config).1.nextSurface := rfl

theorem reloadCommit_stable {s : VMState} {c₂ : List TeamWithTabs}
    (hcur : ∀ p ∈ openPairs c₂, alHas (currentTupMap s) p.1 = true)
    (hkeep : ∀ kv ∈ currentTupMap s, alHas (reloadOpenMap s c₂) kv.1 = true) :
    (reloadCommit s c₂).destroyedSurfaces = s.destroyedSurfaces ∧
      (reloadCommit s c₂).nextSurface = s.nextSurface := by
  have hfst : (reloadOpenBuild s c₂).1 = s := by
    rw [reloadOpenBuild_fst]
    exact buildOpen_all_recycled _ _ _ hcur
  have hfil : (currentTupMap s).filter
      (fun kv => !(alHas (reloadOpenBuild s c₂).2 kv.1)) = [] := by
    apply List.filter_eq_nil_iff.mpr
    intro kv hkv
    have h : alHas (reloadOpenBuild s c₂).2 kv.1 = true := hkeep kv hkv
    rw [h]
    simp
  constructor
  · rw [reloadCommit_destroyedSurfaces, hfil, List.map_nil, hfst,
      List.append_nil]
  · rw [reloadCommit_nextSurface, hfst]

/-- C3: identity stability under reordering — reconfiguring a state whose
live views realise exactly the open TabKeys of `c₁` with a configuration
`c₂` differing from `c₁` only in `order` values destroys no surface, creates
no surface, leaves the set of live TabKeys unchanged, and produces every
rebuilt open entry by recycling the existing live view of that key in place
(`recycleUpd`: only the bound server references and cached server version
change; the surface identity is preserved). -/
theorem C3_identity_stability (s : VMState) (c₁ c₂ : List TeamWithTabs)
    (hcfg : configsSameModOrder c₁ c₂)
    (hlive : ∀ K : TabTuple,
      (∃ v ∈ alValues s.views, v.tuple = K) ↔ keyOpenIn c₁ K = true)
    (hnames : ((alValues (reloadOpenMap s c₂)).map (fun v => v.name)).Nodup) :
    (reloadConfiguration s c₂).destroyedSurfaces = s.destroyedSurfaces ∧
      (reloadConfiguration s c₂).nextSurface = s.nextSurface ∧
      (∀ K : TabTuple,
        (∃ v' ∈ alValues (reloadConfiguration s c₂).views, v'.tuple = K) ↔
          (∃ v ∈ alValues s.views, v.tuple = K)) ∧
      (∀ k w, alGet (reloadOpenMap s c₂) k = some w →
        ∃ old e, alGet (currentTupMap s) k = some old ∧
          w = recycleUpd old e ∧ w.surfaceId = old.surfaceId) := by
  have hco := keyOpenIn_congr hcfg
  have hcur : ∀ p ∈ openPairs c₂, alHas (currentTupMap s) p.1 = true := by
    intro p hp
    have hk : p.1 ∈ (openPairs c₂).map Prod.fst :=
      List.mem_map_of_mem Prod.fst hp
    have hko₂ : keyOpenIn c₂ p.1 = true := keyOpenIn_iff.mpr hk
    have hko₁ : keyOpenIn c₁ p.1 = true := by
      rw [hco]
      exact hko₂
    obtain ⟨v, hv, hvt⟩ := (hlive p.1).mpr hko₁
    exact alHas_currentTupMap.mpr ⟨v, hv, hvt⟩
  have hkeep : ∀ kv ∈ currentTupMap s,
      alHas (reloadOpenMap s c₂) kv.1 = true := by
    intro kv hkv
    obtain ⟨k, v⟩ := kv
    obtain ⟨hval, hkt⟩ := mem_currentTupMap hkv
    apply alHas_reloadOpenMap_iff.mpr
    rw [← hco]
    exact (hlive k).mp ⟨v, hval, hkt.symm⟩
  have hstable := reloadCommit_stable hcur hkeep
  have hghost := reloadConfiguration_ghost_commit s c₂
  have hLn : (((alValues (reloadOpenBuild s c₂).2).map
      (fun x => (x.name, x))).map Prod.fst).Nodup := by
    rw [List.map_map]
    exact hnames
  have hLeq : (reloadCommit s c₂).views =
      (alValues (reloadOpenBuild s c₂).2).map (fun x => (x.name, x)) := by
    rw [reloadCommit_views]
    exact mapFrom_eq_self_of_nodup hLn
  refine ⟨?_, ?_, ?_, ?_⟩
  · rw [ghost_destroyedSurfaces hghost]
    exact hstable.1
  · rw [ghost_nextSurface hghost]
    exact hstable.2
  · intro K
    constructor
    · rintro ⟨v', hv', hvt⟩
      rcases List.mem_map.mp hv' with ⟨p, hp, hp2⟩
      obtain ⟨n, v''⟩ := p
      have hkeysc : ((reloadCommit s c₂).views.map Prod.fst).Nodup := by
        rw [hLeq]
        exact hLn
      have hkeys' :
          ((reloadConfiguration s c₂).views.map Prod.fst).Nodup := by
        rw [reloadConfiguration_keys]
        exact hkeysc
      have hget' : alGet (reloadConfiguration s c₂).views n = some v'' :=
        alGet_eq_some_of_mem_nodup hp hkeys'
      have hchain := reloadConfiguration_get_stripVis s c₂ n
      rw [hget'] at hchain
      cases hcg : alGet (reloadCommit s c₂).views n with
      | none =>
        rw [hcg] at hchain
        exact absurd hchain (by simp)
      | some u =>
        rw [hcg] at hchain
        simp only [Option.map_some'] at hchain
        have hsu : stripVis v'' = stripVis u := by
          injection hchain
        rw [hLeq] at hcg
        have hmemL := mem_of_alGet_eq_some hcg
        rcases List.mem_map.mp hmemL with ⟨x, hxval, hxe⟩
        injection hxe with hx1 hx2
        have humem : u ∈ alValues (reloadOpenBuild s c₂).2 := hx2 ▸ hxval
        rcases List.mem_map.mp humem with ⟨q, hqv, hq2⟩
        obtain ⟨kk, u'⟩ := q
        have hqmem : ((kk, u) : TabTuple × MMView) ∈ reloadOpenMap s c₂ := by
          have h := hqv
          rw [show u' = u from hq2] at h
          exact h
        have hut : u.tuple = kk := reloadOpenMap_mem_tuple hqmem
        have hah : alHas (reloadOpenMap s c₂) kk = true :=
          alHas_of_mem hqmem
        have hko₂ : keyOpenIn c₂ kk = true := alHas_reloadOpenMap_iff.mp hah
        have hko₁ : keyOpenIn c₁ kk = true := by
          rw [hco]
          exact hko₂
        obtain ⟨v₀, hv₀, hv₀t⟩ := (hlive kk).mpr hko₁
        refine ⟨v₀, hv₀, ?_⟩
        rw [hv₀t, ← hut]
        have h₁ : v''.tuple = u.tuple := by
          have h₂ := congrArg MMView.tuple hsu
          exact h₂
        rw [← h₁, show v'' = v' from hp2]
        exact hvt
    · rintro ⟨v, hv, hvt⟩
      have hko₁ : keyOpenIn c₁ K = true := (hlive K).mp ⟨v, hv, hvt⟩
      have hko₂ : keyOpenIn c₂ K = true := by
        rw [← hco]
        exact hko₁
      have hhas : alHas (reloadOpenMap s c₂) K = true :=
        alHas_reloadOpenMap_iff.mpr hko₂
      cases halg : alGet (reloadOpenMap s c₂) K with
      | none =>
        unfold alHas at hhas
        rw [halg] at hhas
        exact absurd hhas (by simp)
      | some u =>
        have humem : u ∈ alValues (reloadOpenMap s c₂) :=
          List.mem_map.mpr ⟨(K, u), mem_of_alGet_eq_some halg, rfl⟩
        have hcget := reloadCommit_get hnames humem
        have hchain := reloadConfiguration_get_stripVis s c₂ u.name
        rw [hcget] at hchain
        cases hres : alGet (reloadConfiguration s c₂).views u.name with
        | none =>
          rw [hres] at hchain
          exact absurd hchain (by simp)
        | some v' =>
          rw [hres] at hchain
          simp only [Option.map_some'] at hchain
          have hsv : stripVis v' = stripVis u := by
            injection hchain
          refine ⟨v', List.mem_map.mpr
            ⟨(u.name, v'), mem_of_alGet_eq_some hres, rfl⟩, ?_⟩
          have h₁ : v'.tuple = u.tuple := by
            have h₂ := congrArg MMView.tuple hsv
            exact h₂
          rw [h₁]
          exact reloadOpenMap_tuple halg
  · intro k w halg
    have hmem : (k, w) ∈ reloadOpenMap s c₂ := mem_of_alGet_eq_some halg
    have hmem' : (k, w) ∈ (buildOpen (currentTupMap s) s (openPairs c₂)).2 := by
      rw [reloadOpenMap, reloadOpenBuild_snd] at hmem
      exact mem_of_mem_mapFrom hmem
    obtain ⟨e, hel, hcase⟩ := buildOpen_snd_mem _ _ _ hmem'
    rcases hcase with ⟨old, hcur', hwrec⟩ | ⟨hnone, sid, hwfresh⟩
    · refine ⟨old, e, hcur', hwrec, ?_⟩
      rw [hwrec]
      rfl
    · exfalso
      have hk : k ∈ (openPairs c₂).map Prod.fst :=
        List.mem_map_of_mem Prod.fst hel
      have hko₂ : keyOpenIn c₂ k = true := keyOpenIn_iff.mpr hk
      have hko₁ : keyOpenIn c₁ k = true := by
        rw [hco]
        exact hko₂
      obtain ⟨v, hv, hvt⟩ := (hlive k).mpr hko₁
      have hhasc : alHas (currentTupMap s) k = true :=
        alHas_currentTupMap.mpr ⟨v, hv, hvt⟩
      unfold alHas at hhasc
      rw [hnone] at hhasc
      exact Bool.noConfusion hhasc

/-- Witness for C3: the two-tab configuration with swapped `order` values,
applied to a state running both tabs. -/
theorem C3_identity_stability_witness :
    configsSameModOrder [teamABothOpen] [teamABothOpenSwapped] ∧
      (reloadConfiguration stateBothOpen
        [teamABothOpenSwapped]).destroyedSurfaces =
          stateBothOpen.destroyedSurfaces ∧
      (reloadConfiguration stateBothOpen [teamABothOpenSwapped]).nextSurface =
        stateBothOpen.nextSurface := by
  have hcfg : configsSameModOrder [teamABothOpen] [teamABothOpenSwapped] :=
    List.Forall₂.cons
      ⟨rfl, rfl, List.Forall₂.cons ⟨rfl, rfl⟩
        (List.Forall₂.cons ⟨rfl, rfl⟩ List.Forall₂.nil)⟩
      List.Forall₂.nil
  have hlive : ∀ K : TabTuple,
      (∃ v ∈ alValues stateBothOpen.views, v.tuple = K) ↔
        keyOpenIn [teamABothOpen] K = true := by
    intro K
    constructor
    · rintro ⟨v, hv, hvt⟩
      have hv' : v ∈ [viewMessaging, viewFocalboard] := hv
      rcases List.mem_cons.mp hv' with h₁ | h₁
      · rw [h₁] at hvt
        rw [← hvt]
        decide
      · rcases List.mem_cons.mp h₁ with h₂ | h₂
        · rw [h₂] at hvt
          rw [← hvt]
          decide
        · exact absurd h₂ (by simp)
    · intro h
      have h₁ := keyOpenIn_iff.mp h
      have h₂ : K ∈ [(⟨"http://a.example.com/", "messaging"⟩ : TabTuple),
          ⟨"http://a.example.com/", "focalboard"⟩] := h₁
      rcases List.mem_cons.mp h₂ with hK | h₃
      · refine ⟨viewMessaging, by decide, ?_⟩
        rw [hK]
        decide
      · rcases List.mem_cons.mp h₃ with hK | h₄
        · refine ⟨viewFocalboard, by decide, ?_⟩
          rw [hK]
          decide
        · exact absurd h₄ (by simp)
  have h := C3_identity_stability stateBothOpen [teamABothOpen]
    [teamABothOpenSwapped] hcfg hlive (by decide)
  exact ⟨hcfg, h.1, h.2.1⟩

end ViewManagerProof
